import Mathlib

/-!
# solver_na2as: named assertions implemented through assumptions

A shallow embedding of `src/solver/solver_na2as.cpp`.  The class keeps two
private fields, `m_assumptions` (the standing assumption literals) and
`m_scopes` (one length marker per open scope), and talks to the derived
solver through the virtual hooks `assert_expr(t)`, `push_core`, `pop_core`,
`check_sat_core` and `get_consequences_core`.

The derived solver is a parameter of every definition: an arbitrary state
type `β` with arbitrary hook functions, each of which may return normally or
throw an exception of type `ε`.  Every operation returns its outcome together
with the state the object is left in, so that the state after an exception
has propagated is still observable, as it is in C++.  Every call of a hook is
also recorded, in order, in the field `calls`.
-/

/-- Modelled from the spec: the three-valued status `lbool` returned by the
backend queries (unsatisfiable / unknown / satisfiable); its declaration is not
part of solver_na2as.cpp. -/
inductive lbool
  | l_false
  | l_undef
  | l_true
  deriving DecidableEq, Repr

/-- Modelled from the spec: the formulas (`expr`) owned by the `ast_manager`,
whose declarations are not part of solver_na2as.cpp.  Only what the file uses
is kept: uninterpreted constants (the labels are the boolean ones), the
implication built by `mk_implies`, and any other term, kept as an atom. -/
inductive expr
  | const (name : Nat) (boolean : Bool)
  | implies (a t : expr)
  | other (id : Nat) (boolean : Bool)
  deriving DecidableEq, Repr

/-- Modelled from the spec: `ast_manager::mk_implies(a, t)`, the formula
`a ⇒ t` with antecedent `a` and consequent `t`. -/
def mk_implies (a t : expr) : expr := expr.implies a t

/-- Modelled from the spec: `is_uninterp_const(a)`, true exactly of the
nullary symbolic constants. -/
def is_uninterp_const : expr → Bool
  | expr.const _ _ => true
  | _ => false

/-- Modelled from the spec: `ast_manager::is_bool(a)`, true exactly of the
boolean-valued terms. -/
def is_bool : expr → Bool
  | expr.const _ boolean => boolean
  | expr.implies _ _ => true
  | expr.other _ boolean => boolean

/-- The ways an operation of this layer can end other than by returning.
`assertion_violation line` is the `SASSERT` at that line of solver_na2as.cpp
found false; `vector_index` and `vector_shrink` are the bounds checks of the
vector operations `operator[]` and `shrink`; `exception e` is an exception
thrown by a hook of the derived solver and propagated unchanged. -/
inductive failure (ε : Type)
  | assertion_violation (line : Nat)
  | vector_index
  | vector_shrink
  | exception (e : ε)
  deriving DecidableEq, Repr

/-- Modelled from the spec: the macro `SASSERT(cond)`, whose definition is not
part of solver_na2as.cpp.  It is taken as the contract check the spec
describes: a false condition ends the operation with an error naming the
line. -/
def SASSERT {ε : Type} (line : Nat) (cond : Bool) : Except (failure ε) Unit :=
  if cond then Except.ok () else Except.error (failure.assertion_violation line)

/-- Modelled from the spec: `vector::shrink(sz)` (and `ref_vector::shrink`),
truncation to a previously recorded length.  Asking for more than the current
size is not a truncation and is reported. -/
def shrink {α ε : Type} (v : List α) (sz : Nat) : Except (failure ε) (List α) :=
  if sz ≤ v.length then Except.ok (v.take sz) else Except.error failure.vector_shrink

/-- Modelled from the spec: `vector::operator[]`, a read at an index that has
to be below the size. -/
def index {α ε : Type} (v : List α) (i : Nat) : Except (failure ε) α :=
  match v[i]? with
  | some x => Except.ok x
  | none => Except.error failure.vector_index

/-- The derived solver behind the layer: a state `β` and the five virtual
functions this file calls.  Each returns normally or throws (`Except ε`) and
leaves a new state of the derived solver either way.
`get_consequences_core` also takes the caller's `consequences` vector and
returns its new contents. -/
structure backend (β ε : Type) where
  assert_expr : expr → β → Except ε Unit × β
  push_core : β → Except ε Unit × β
  pop_core : Nat → β → Except ε Unit × β
  check_sat_core : Nat → List expr → β → Except ε lbool × β
  get_consequences_core : List expr → List expr → List expr → β → (Except ε lbool × List expr) × β

/-- A call made by the layer to a hook of the derived solver, with its
arguments. -/
inductive call
  | assert_expr (t : expr)
  | push_core
  | pop_core (n : Nat)
  | check_sat_core (num_assumptions : Nat) (assumptions : List expr)
  | get_consequences_core (asms vars : List expr)
  deriving DecidableEq, Repr

/-- The object: the two fields of the class, the state of the derived solver,
and the record of the hook calls made so far. -/
structure solver_na2as (β : Type) where
  m_assumptions : List expr
  m_scopes : List Nat
  derived : β
  calls : List call

namespace solver_na2as

variable {β ε : Type}

/-- The constructor (lines 25-28): both vectors start empty. -/
def create (derived : β) : solver_na2as β :=
  { m_assumptions := [], m_scopes := [], derived := derived, calls := [] }

/-- An exception thrown by a hook propagates through the layer unchanged. -/
def propagate {α : Type} : Except ε α → Except (failure ε) α
  | Except.ok x => Except.ok x
  | Except.error e => Except.error (failure.exception e)

/-- The plain `assert_expr(t)` of the derived solver (virtual in the base
class), as called from this file. -/
def assert_plain (b : backend β ε) (t : expr) (s : solver_na2as β) :
    Except (failure ε) Unit × solver_na2as β :=
  let r := b.assert_expr t s.derived
  (propagate r.1, { s with derived := r.2, calls := s.calls ++ [call.assert_expr t] })

/-- The hook `push_core()`. -/
def push_core (b : backend β ε) (s : solver_na2as β) :
    Except (failure ε) Unit × solver_na2as β :=
  let r := b.push_core s.derived
  (propagate r.1, { s with derived := r.2, calls := s.calls ++ [call.push_core] })

/-- The hook `pop_core(n)`. -/
def pop_core (b : backend β ε) (n : Nat) (s : solver_na2as β) :
    Except (failure ε) Unit × solver_na2as β :=
  let r := b.pop_core n s.derived
  (propagate r.1, { s with derived := r.2, calls := s.calls ++ [call.pop_core n] })

/-- The hook `check_sat_core(num_assumptions, assumptions)`. -/
def check_sat_core (b : backend β ε) (num_assumptions : Nat) (assumptions : List expr)
    (s : solver_na2as β) : Except (failure ε) lbool × solver_na2as β :=
  let r := b.check_sat_core num_assumptions assumptions s.derived
  (propagate r.1,
    { s with derived := r.2,
             calls := s.calls ++ [call.check_sat_core num_assumptions assumptions] })

/-- The hook `get_consequences_core(asms, vars, consequences)`. -/
def get_consequences_core (b : backend β ε) (asms vars consequences : List expr)
    (s : solver_na2as β) : (Except (failure ε) lbool × List expr) × solver_na2as β :=
  let r := b.get_consequences_core asms vars consequences s.derived
  ((propagate r.1.1, r.1.2),
    { s with derived := r.2, calls := s.calls ++ [call.get_consequences_core asms vars] })

/-- Lines 32-45, `assert_expr(t, a)`; a null `a` is `none`.  The `TRACE` of line
39 only logs and is left out. -/
def assert_expr (b : backend β ε) (t : expr) (a : Option expr) (s : solver_na2as β) :
    Except (failure ε) Unit × solver_na2as β :=
  match a with
  | none => assert_plain b t s
  | some a =>
    match SASSERT 37 (is_uninterp_const a) with
    | Except.error e => (Except.error e, s)
    | Except.ok _ =>
      match SASSERT 38 (is_bool a) with
      | Except.error e => (Except.error e, s)
      | Except.ok _ =>
        let s1 := { s with m_assumptions := s.m_assumptions ++ [a] }
        let new_t := mk_implies a t
        assert_plain b new_t s1

end solver_na2as

/-- Lines 47-61, the guard object `append_assumptions`: it remembers the size
the vector had when the guard was built. -/
structure append_assumptions where
  m_old_sz : Nat

namespace append_assumptions

variable {β : Type}

/-- The constructor of the guard (lines 50-56). -/
def create (assumptions : List expr) (s : solver_na2as β) :
    append_assumptions × solver_na2as β :=
  ({ m_old_sz := s.m_assumptions.length },
   { s with m_assumptions := s.m_assumptions ++ assumptions })

/-- The destructor of the guard (lines 58-60), run on every way out of the
enclosing function. -/
def destroy {ε : Type} (app : append_assumptions) (s : solver_na2as β) :
    Except (failure ε) Unit × solver_na2as β :=
  match shrink s.m_assumptions app.m_old_sz with
  | Except.ok v => (Except.ok (), { s with m_assumptions := v })
  | Except.error e => (Except.error e, s)

end append_assumptions

namespace solver_na2as

variable {β ε : Type}

/-- Lines 63-66, `check_sat(num_assumptions, assumptions)`; the counted array
is the list `assumptions`. -/
def check_sat (b : backend β ε) (assumptions : List expr) (s : solver_na2as β) :
    Except (failure ε) lbool × solver_na2as β :=
  let g := append_assumptions.create assumptions s
  let r := check_sat_core b g.2.m_assumptions.length g.2.m_assumptions g.2
  match append_assumptions.destroy g.1 r.2 with
  | (Except.ok _, s3) => (r.1, s3)
  | (Except.error e, s3) => (Except.error e, s3)

/-- Lines 68-71, `get_consequences(asms, vars, consequences)`; the result
carries the status and the contents of `consequences` afterwards. -/
def get_consequences (b : backend β ε) (asms vars consequences : List expr)
    (s : solver_na2as β) : (Except (failure ε) lbool × List expr) × solver_na2as β :=
  let g := append_assumptions.create asms s
  let r := get_consequences_core b g.2.m_assumptions vars consequences g.2
  match append_assumptions.destroy g.1 r.2 with
  | (Except.ok _, s3) => (r.1, s3)
  | (Except.error e, s3) => ((Except.error e, r.1.2), s3)

/-- Lines 73-76, `push()`. -/
def push (b : backend β ε) (s : solver_na2as β) :
    Except (failure ε) Unit × solver_na2as β :=
  let s1 := { s with m_scopes := s.m_scopes ++ [s.m_assumptions.length] }
  push_core b s1

/-- Lines 89-91, `restore_assumptions(old_sz)`. -/
def restore_assumptions (old_sz : Nat) (s : solver_na2as β) :
    Except (failure ε) Unit × solver_na2as β :=
  match shrink s.m_assumptions old_sz with
  | Except.ok v => (Except.ok (), { s with m_assumptions := v })
  | Except.error e => (Except.error e, s)

/-- Lines 78-87, `pop(n)`.  The sizes are natural numbers: the only subtraction,
`lvl - n`, comes after the check `n <= lvl`. -/
def pop (b : backend β ε) (n : Nat) (s : solver_na2as β) :
    Except (failure ε) Unit × solver_na2as β :=
  if 0 < n then
    match pop_core b n s with
    | (Except.error e, s1) => (Except.error e, s1)
    | (Except.ok _, s1) =>
      let lvl := s1.m_scopes.length
      match SASSERT 82 (decide (n ≤ lvl)) with
      | Except.error e => (Except.error e, s1)
      | Except.ok _ =>
        let new_lvl := lvl - n
        match index s1.m_scopes new_lvl with
        | Except.error e => (Except.error e, s1)
        | Except.ok old_sz =>
          match restore_assumptions old_sz s1 with
          | (Except.error e, s2) => (Except.error e, s2)
          | (Except.ok _, s2) =>
            match shrink s2.m_scopes new_lvl with
            | Except.error e => (Except.error e, s2)
            | Except.ok v => (Except.ok (), { s2 with m_scopes := v })
  else (Except.ok (), s)

/-- Lines 93-95, `get_scope_level()`. -/
def get_scope_level (s : solver_na2as β) : Nat :=
  s.m_scopes.length

end solver_na2as

/-- The operations a caller can issue. -/
inductive op
  | assert (t : expr)
  | assert_named (t : expr) (a : Option expr)
  | check_sat (assumptions : List expr)
  | get_consequences (asms vars consequences : List expr)
  | push
  | pop (n : Nat)
  deriving DecidableEq, Repr

namespace solver_na2as

variable {β ε : Type}

/-- The state the object is left in by one operation, whether the operation
returned or ended with an error. -/
def step (b : backend β ε) (o : op) (s : solver_na2as β) : solver_na2as β :=
  match o with
  | op.assert t => (assert_plain b t s).2
  | op.assert_named t a => (assert_expr b t a s).2
  | op.check_sat assumptions => (check_sat b assumptions s).2
  | op.get_consequences asms vars consequences => (get_consequences b asms vars consequences s).2
  | op.push => (push b s).2
  | op.pop n => (pop b n s).2

/-- The state after a sequence of operations, issued one after the other. -/
def exec (b : backend β ε) (ops : List op) (s : solver_na2as β) : solver_na2as β :=
  ops.foldl (fun s o => step b o s) s

/-- The operation respects the contract of `pop`: a `pop(n)` is issued at a
depth of at least `n`. -/
def admissible (o : op) (s : solver_na2as β) : Prop :=
  match o with
  | op.pop n => n ≤ get_scope_level s
  | _ => True

/-- Every `pop(n)` of the sequence is issued at a depth of at least `n`. -/
def valid (b : backend β ε) : List op → solver_na2as β → Prop
  | [], _ => True
  | o :: os, s => admissible o s ∧ valid b os (step b o s)

/-- The markers are non-decreasing from bottom to top and none exceeds the
length of the assumption list. -/
def consistent (s : solver_na2as β) : Prop :=
  (s.m_scopes ++ [s.m_assumptions.length]).Pairwise (fun x y => x ≤ y)

/-- The push issued right after `pre` opened level `d + 1`, and that level has
stayed open through all of `mid`. -/
def opened_by (b : backend β ε) (s0 : solver_na2as β) (pre mid : List op) (d : Nat) : Prop :=
  get_scope_level (exec b pre s0) = d ∧
    ∀ k, k ≤ mid.length → d < get_scope_level (exec b (pre ++ op.push :: mid.take k) s0)

end solver_na2as

/-- A derived solver without state that accepts every call and answers every
query with `status` and the consequences unchanged. -/
def backend.steady (status : lbool) : backend Unit Unit :=
  { assert_expr := fun _ d => (Except.ok (), d),
    push_core := fun d => (Except.ok (), d),
    pop_core := fun _ d => (Except.ok (), d),
    check_sat_core := fun _ _ d => (Except.ok status, d),
    get_consequences_core := fun _ _ consequences d => ((Except.ok status, consequences), d) }

/-- A derived solver every hook of which throws. -/
def backend.throwing : backend Unit Unit :=
  { assert_expr := fun _ d => (Except.error (), d),
    push_core := fun d => (Except.error (), d),
    pop_core := fun _ d => (Except.error (), d),
    check_sat_core := fun _ _ d => (Except.error (), d),
    get_consequences_core := fun _ _ consequences d => ((Except.error (), consequences), d) }

namespace solver_na2as

variable {β ε : Type}

/-- The number of `push` calls in a sequence. -/
def pushes : List op → Nat
  | [] => 0
  | op.push :: os => pushes os + 1
  | _ :: os => pushes os

/-- The sum of the arguments of the `pop` calls in a sequence. -/
def popped : List op → Nat
  | [] => 0
  | op.pop n :: os => popped os + n
  | _ :: os => popped os

/-- The hook `pop_core` returns normally at every `pop(n)`, `n > 0`, of the
sequence. -/
def pops_return (b : backend β ε) : List op → solver_na2as β → Prop
  | [], _ => True
  | o :: os, s =>
    (∀ n, o = op.pop n → 0 < n → (b.pop_core n s.derived).1 = Except.ok ()) ∧
      pops_return b os (step b o s)

/-- Every `pop(n)` of the sequence is within the depth and has a target depth
of at least `k`. -/
def pops_target_ge (b : backend β ε) (k : Nat) : List op → solver_na2as β → Prop
  | [], _ => True
  | o :: os, s =>
    (∀ n, o = op.pop n → n ≤ get_scope_level s ∧ k ≤ get_scope_level s - n) ∧
      pops_target_ge b k os (step b o s)

end solver_na2as

/-- The labels and formulas of the scenarios. -/
def scenario_a1 : expr := expr.const 1 true

/-- The second label of the scenarios. -/
def scenario_a2 : expr := expr.const 2 true

/-- The first formula of the scenarios. -/
def scenario_t1 : expr := expr.other 10 true

/-- The second formula of the scenarios. -/
def scenario_t2 : expr := expr.other 20 true

/-- The first four operations of Scenario A. -/
def scenario_A : List op :=
  [op.push, op.assert_named scenario_t1 (some scenario_a1), op.push,
    op.assert_named scenario_t2 (some scenario_a2)]

/-- The scope levels a recorded call opens in the backend: one for `push_core`,
none for any other call. -/
def call.opened : call → Nat
  | call.push_core => 1
  | _ => 0

/-- The scope levels a recorded call closes in the backend: `n` for
`pop_core(n)`, none for any other call. -/
def call.closed : call → Nat
  | call.pop_core n => n
  | _ => 0

/-- The number of `push_core` calls in a record of calls. -/
def push_core_calls (cs : List call) : Nat :=
  (cs.map call.opened).sum

/-- The sum of the arguments of the `pop_core` calls in a record of calls. -/
def pop_core_levels (cs : List call) : Nat :=
  (cs.map call.closed).sum

/-! ## The effect of each operation on the two fields -/

namespace solver_na2as

variable {β ε : Type}

theorem shrink_within {α : Type} (v : List α) (sz : Nat) (h : sz ≤ v.length) :
    (shrink v sz : Except (failure ε) (List α)) = Except.ok (v.take sz) := by
  simp [shrink, h]

theorem shrink_appended {α : Type} (v w : List α) :
    (shrink (v ++ w) v.length : Except (failure ε) (List α)) = Except.ok v := by
  simp [shrink]

theorem index_within {α : Type} (v : List α) (i : Nat) (x : α) (h : v[i]? = some x) :
    (index v i : Except (failure ε) α) = Except.ok x := by
  simp [index, h]

@[simp] theorem assert_plain_assumptions (b : backend β ε) (t : expr) (s : solver_na2as β) :
    (assert_plain b t s).2.m_assumptions = s.m_assumptions := rfl

@[simp] theorem assert_plain_scopes (b : backend β ε) (t : expr) (s : solver_na2as β) :
    (assert_plain b t s).2.m_scopes = s.m_scopes := rfl

@[simp] theorem push_assumptions (b : backend β ε) (s : solver_na2as β) :
    (push b s).2.m_assumptions = s.m_assumptions := rfl

@[simp] theorem push_scopes (b : backend β ε) (s : solver_na2as β) :
    (push b s).2.m_scopes = s.m_scopes ++ [s.m_assumptions.length] := rfl

/-- The closed form of `check_sat`: the guard always finds the list at least
as long as it was. -/
theorem check_sat_eq (b : backend β ε) (assumptions : List expr) (s : solver_na2as β) :
    check_sat b assumptions s =
      (propagate (b.check_sat_core (s.m_assumptions ++ assumptions).length
          (s.m_assumptions ++ assumptions) s.derived).1,
        { s with
          derived := (b.check_sat_core (s.m_assumptions ++ assumptions).length
            (s.m_assumptions ++ assumptions) s.derived).2,
          calls := s.calls ++ [call.check_sat_core (s.m_assumptions ++ assumptions).length
            (s.m_assumptions ++ assumptions)] }) := by
  simp [check_sat, append_assumptions.create, append_assumptions.destroy, check_sat_core,
    shrink]

/-- The closed form of `get_consequences`. -/
theorem get_consequences_eq (b : backend β ε) (asms vars consequences : List expr)
    (s : solver_na2as β) :
    get_consequences b asms vars consequences s =
      ((propagate (b.get_consequences_core (s.m_assumptions ++ asms) vars consequences
            s.derived).1.1,
          (b.get_consequences_core (s.m_assumptions ++ asms) vars consequences s.derived).1.2),
        { s with
          derived := (b.get_consequences_core (s.m_assumptions ++ asms) vars consequences
            s.derived).2,
          calls := s.calls ++ [call.get_consequences_core (s.m_assumptions ++ asms) vars] }) := by
  simp [get_consequences, append_assumptions.create, append_assumptions.destroy,
    get_consequences_core, shrink]

/-- The closed form of `assert_expr(t, a)` for a label `a`. -/
theorem assert_expr_label (b : backend β ε) (t a : expr) (s : solver_na2as β)
    (hconst : is_uninterp_const a = true) (hbool : is_bool a = true) :
    assert_expr b t (some a) s =
      (propagate (b.assert_expr (expr.implies a t) s.derived).1,
        { s with
          m_assumptions := s.m_assumptions ++ [a],
          derived := (b.assert_expr (expr.implies a t) s.derived).2,
          calls := s.calls ++ [call.assert_expr (expr.implies a t)] }) := by
  simp [assert_expr, SASSERT, hconst, hbool, assert_plain, mk_implies]

/-- Whatever the label, `assert_expr(t, a)` leaves the list as it was or adds
one entry at its end. -/
theorem assert_expr_assumptions (b : backend β ε) (t : expr) (a : Option expr)
    (s : solver_na2as β) :
    (assert_expr b t a s).2.m_assumptions = s.m_assumptions ∨
      ∃ x, (assert_expr b t a s).2.m_assumptions = s.m_assumptions ++ [x] := by
  cases a with
  | none => left; rfl
  | some a =>
    by_cases h1 : is_uninterp_const a = true
    · by_cases h2 : is_bool a = true
      · right; exact ⟨a, by rw [assert_expr_label b t a s h1 h2]⟩
      · left; simp [assert_expr, SASSERT, h1, h2]
    · left; simp [assert_expr, SASSERT, h1]

@[simp] theorem assert_expr_scopes (b : backend β ε) (t : expr) (a : Option expr)
    (s : solver_na2as β) : (assert_expr b t a s).2.m_scopes = s.m_scopes := by
  cases a with
  | none => rfl
  | some a =>
    by_cases h1 : is_uninterp_const a = true
    · by_cases h2 : is_bool a = true
      · rw [assert_expr_label b t a s h1 h2]
      · simp [assert_expr, SASSERT, h1, h2]
    · simp [assert_expr, SASSERT, h1]

@[simp] theorem check_sat_assumptions (b : backend β ε) (assumptions : List expr)
    (s : solver_na2as β) : (check_sat b assumptions s).2.m_assumptions = s.m_assumptions := by
  rw [check_sat_eq]

@[simp] theorem check_sat_scopes (b : backend β ε) (assumptions : List expr)
    (s : solver_na2as β) : (check_sat b assumptions s).2.m_scopes = s.m_scopes := by
  rw [check_sat_eq]

@[simp] theorem get_consequences_assumptions (b : backend β ε) (asms vars consequences : List expr)
    (s : solver_na2as β) :
    (get_consequences b asms vars consequences s).2.m_assumptions = s.m_assumptions := by
  rw [get_consequences_eq]

@[simp] theorem get_consequences_scopes (b : backend β ε) (asms vars consequences : List expr)
    (s : solver_na2as β) :
    (get_consequences b asms vars consequences s).2.m_scopes = s.m_scopes := by
  rw [get_consequences_eq]

/-- The closed form of `pop(n)` when the hook throws. -/
theorem pop_thrown (b : backend β ε) (n : Nat) (s : solver_na2as β) (e : ε) (hn : 0 < n)
    (h : (b.pop_core n s.derived).1 = Except.error e) :
    pop b n s = (Except.error (failure.exception e),
      { s with derived := (b.pop_core n s.derived).2, calls := s.calls ++ [call.pop_core n] }) := by
  simp [pop, hn, pop_core, h, propagate]

/-- The closed form of `pop(n)` beyond the depth, when the hook returns. -/
theorem pop_beyond (b : backend β ε) (n : Nat) (s : solver_na2as β)
    (hn : s.m_scopes.length < n) (h : (b.pop_core n s.derived).1 = Except.ok ()) :
    pop b n s = (Except.error (failure.assertion_violation 82),
      { s with derived := (b.pop_core n s.derived).2, calls := s.calls ++ [call.pop_core n] }) := by
  have h0 : 0 < n := by omega
  have h1 : ¬ n ≤ s.m_scopes.length := by omega
  simp [pop, h0, pop_core, h, propagate, SASSERT, h1]

/-- The closed form of `pop(n)` within the depth, when the hook returns and the
marker read does not exceed the length of the list. -/
theorem pop_returned (b : backend β ε) (n : Nat) (s : solver_na2as β) (m : Nat)
    (hn : 0 < n) (hlvl : n ≤ s.m_scopes.length) (h : (b.pop_core n s.derived).1 = Except.ok ())
    (hm : s.m_scopes[s.m_scopes.length - n]? = some m) (hle : m ≤ s.m_assumptions.length) :
    pop b n s = (Except.ok (),
      { m_assumptions := s.m_assumptions.take m,
        m_scopes := s.m_scopes.take (s.m_scopes.length - n),
        derived := (b.pop_core n s.derived).2,
        calls := s.calls ++ [call.pop_core n] }) := by
  simp [pop, hn, pop_core, h, propagate, SASSERT, hlvl, index, hm, restore_assumptions, shrink, hle]

end solver_na2as

/-! ## Consistency of the markers with the list -/

namespace solver_na2as

variable {β ε : Type}

/-- What `pop(n)` does to the two fields: nothing, or a truncation of both to
the target depth and to the marker found there. -/
theorem pop_effect (b : backend β ε) (n : Nat) (s : solver_na2as β) :
    ((pop b n s).2.m_assumptions = s.m_assumptions ∧ (pop b n s).2.m_scopes = s.m_scopes) ∨
    (0 < n ∧ n ≤ s.m_scopes.length ∧ (pop b n s).1 = Except.ok () ∧
      ∃ m, s.m_scopes[s.m_scopes.length - n]? = some m ∧ m ≤ s.m_assumptions.length ∧
        (pop b n s).2.m_assumptions = s.m_assumptions.take m ∧
        (pop b n s).2.m_scopes = s.m_scopes.take (s.m_scopes.length - n)) := by
  by_cases hn : 0 < n
  · cases hc : (b.pop_core n s.derived).1 with
    | error e => left; rw [pop_thrown b n s e hn hc]; exact ⟨rfl, rfl⟩
    | ok u =>
      by_cases hlvl : n ≤ s.m_scopes.length
      · have hlt : s.m_scopes.length - n < s.m_scopes.length := by omega
        have hm : s.m_scopes[s.m_scopes.length - n]? =
            some (s.m_scopes[s.m_scopes.length - n]) := List.getElem?_eq_getElem hlt
        by_cases hle : s.m_scopes[s.m_scopes.length - n] ≤ s.m_assumptions.length
        · right
          rw [pop_returned b n s _ hn hlvl hc hm hle]
          exact ⟨hn, hlvl, rfl, _, hm, hle, rfl, rfl⟩
        · left
          simp [pop, hn, pop_core, hc, propagate, SASSERT, hlvl, index, hm, restore_assumptions,
            shrink, hle]
      · left; rw [pop_beyond b n s (by omega) hc]; exact ⟨rfl, rfl⟩
  · left; simp [pop, hn]

theorem consistent_create (c : β) : consistent (create c) := by
  simp [consistent, create]

/-- In a consistent state every marker is at most the length of the list. -/
theorem consistent_marker_le (s : solver_na2as β) (h : consistent s) (i m : Nat)
    (hm : s.m_scopes[i]? = some m) : m ≤ s.m_assumptions.length := by
  unfold consistent at h
  rw [List.pairwise_append] at h
  exact h.2.2 m (List.getElem?_mem hm) _ (List.mem_singleton.mpr rfl)

/-- A consistent state stays consistent when the list grows. -/
theorem consistent_grow (s s2 : solver_na2as β) (h : consistent s)
    (hs : s2.m_scopes = s.m_scopes) (hl : s.m_assumptions.length ≤ s2.m_assumptions.length) :
    consistent s2 := by
  unfold consistent at h ⊢
  rw [List.pairwise_append] at h ⊢
  rw [hs]
  refine ⟨h.1, List.pairwise_singleton _ _, ?_⟩
  intro x hx y hy
  rw [List.mem_singleton] at hy
  subst hy
  exact Nat.le_trans (h.2.2 x hx _ (List.mem_singleton.mpr rfl)) hl

/-- A consistent state stays consistent when both fields are truncated to a
depth and to the marker found there. -/
theorem consistent_truncate (s s2 : solver_na2as β) (h : consistent s) (k m : Nat)
    (hm : s.m_scopes[k]? = some m) (hs : s2.m_scopes = s.m_scopes.take k)
    (ha : s2.m_assumptions = s.m_assumptions.take m) : consistent s2 := by
  have hle := consistent_marker_le s h k m hm
  unfold consistent at h ⊢
  rw [List.pairwise_append] at h
  have hlen : s2.m_assumptions.length = m := by rw [ha, List.length_take]; omega
  have hk : k < s.m_scopes.length := (List.getElem?_eq_some_iff.mp hm).1
  have hx : s.m_scopes[k] = m := (List.getElem?_eq_some_iff.mp hm).2
  have htake : s.m_scopes.take (k + 1) = s.m_scopes.take k ++ [m] := by
    rw [List.take_succ, hm]; rfl
  rw [hs, hlen, ← htake]
  exact h.1.sublist (List.take_sublist _ _)

theorem consistent_step (b : backend β ε) (o : op) (s : solver_na2as β) (h : consistent s) :
    consistent (step b o s) := by
  cases o with
  | assert t => exact consistent_grow s _ h rfl (Nat.le_refl _)
  | assert_named t a =>
    refine consistent_grow s _ h (assert_expr_scopes b t a s) ?_
    rcases assert_expr_assumptions b t a s with h1 | ⟨x, h1⟩
    · simp [step, h1]
    · simp [step, h1]
  | check_sat assumptions =>
    exact consistent_grow s _ h (check_sat_scopes b assumptions s)
      (by simp [step])
  | get_consequences asms vars consequences =>
    exact consistent_grow s _ h (get_consequences_scopes b asms vars consequences s)
      (by simp [step])
  | push =>
    unfold consistent at h ⊢
    simp only [step, push_scopes, push_assumptions]
    rw [List.pairwise_append] at h ⊢
    refine ⟨?_, List.pairwise_singleton _ _, ?_⟩
    · rw [List.pairwise_append]; exact h
    · intro x hx y hy
      rw [List.mem_singleton] at hy
      subst hy
      rcases List.mem_append.mp hx with hx | hx
      · exact h.2.2 x hx _ (List.mem_singleton.mpr rfl)
      · rw [List.mem_singleton] at hx; omega
  | pop n =>
    rcases pop_effect b n s with ⟨h1, h2⟩ | ⟨_, _, _, m, hm, _, h1, h2⟩
    · exact consistent_grow s _ h h2 (by simp [step, h1])
    · exact consistent_truncate s _ h _ m hm h2 h1

theorem exec_nil (b : backend β ε) (s : solver_na2as β) : exec b [] s = s := rfl

theorem exec_cons (b : backend β ε) (o : op) (os : List op) (s : solver_na2as β) :
    exec b (o :: os) s = exec b os (step b o s) := rfl

theorem exec_append (b : backend β ε) (xs ys : List op) (s : solver_na2as β) :
    exec b (xs ++ ys) s = exec b ys (exec b xs s) := by
  simp [exec, List.foldl_append]

theorem valid_append (b : backend β ε) (xs ys : List op) (s : solver_na2as β) :
    valid b (xs ++ ys) s ↔ valid b xs s ∧ valid b ys (exec b xs s) := by
  induction xs generalizing s with
  | nil => simp [valid, exec_nil]
  | cons o os ih => simp [valid, exec_cons, ih, and_assoc]

theorem consistent_exec (b : backend β ε) (ops : List op) (s : solver_na2as β)
    (h : consistent s) : consistent (exec b ops s) := by
  induction ops generalizing s with
  | nil => exact h
  | cons o os ih => exact ih _ (consistent_step b o s h)

end solver_na2as

/-! ## What stays fixed while a level is open -/

namespace solver_na2as

variable {β ε : Type}

/-- In a consistent state the markers are non-decreasing. -/
theorem consistent_marker_mono (s : solver_na2as β) (h : consistent s) (i j x y : Nat)
    (hij : i ≤ j) (hx : s.m_scopes[i]? = some x) (hy : s.m_scopes[j]? = some y) : x ≤ y := by
  unfold consistent at h
  rw [List.pairwise_append] at h
  obtain ⟨hi, hxi⟩ := List.getElem?_eq_some_iff.mp hx
  obtain ⟨hj, hyj⟩ := List.getElem?_eq_some_iff.mp hy
  rcases Nat.eq_or_lt_of_le hij with heq | hlt
  · subst heq
    rw [hx] at hy
    injection hy with hy
    omega
  · have := (List.pairwise_iff_getElem.mp h.1) i j hi hj hlt
    omega

theorem get_scope_level_step_push (b : backend β ε) (s : solver_na2as β) :
    get_scope_level (step b op.push s) = get_scope_level s + 1 := by
  simp [step, get_scope_level]

/-- Only `push` raises the depth. -/
theorem get_scope_level_step_le (b : backend β ε) (o : op) (s : solver_na2as β)
    (ho : o ≠ op.push) : get_scope_level (step b o s) ≤ get_scope_level s := by
  cases o with
  | assert t => simp [step, get_scope_level]
  | assert_named t a => simp [step, get_scope_level]
  | check_sat assumptions => simp [step, get_scope_level]
  | get_consequences asms vars consequences => simp [step, get_scope_level]
  | push => exact absurd rfl ho
  | pop n =>
    rcases pop_effect b n s with ⟨_, h2⟩ | ⟨_, _, _, m, _, _, _, h2⟩
    · simp [step, get_scope_level, h2]
    · simp [step, get_scope_level, h2]

/-- One operation that leaves the depth above `d` changes neither the lowest
`d + 1` markers nor the part of the list below the marker of level `d`. -/
theorem anchored_step (b : backend β ε) (o : op) (s : solver_na2as β) (d len : Nat)
    (h : consistent s) (hd : s.m_scopes[d]? = some len)
    (habove : d < get_scope_level (step b o s)) :
    (step b o s).m_scopes.take (d + 1) = s.m_scopes.take (d + 1) ∧
    (step b o s).m_assumptions.take len = s.m_assumptions.take len := by
  have hdlt : d + 1 ≤ s.m_scopes.length := (List.getElem?_eq_some_iff.mp hd).1
  have hlen : len ≤ s.m_assumptions.length := consistent_marker_le s h d len hd
  cases o with
  | assert t => exact ⟨rfl, rfl⟩
  | assert_named t a =>
    refine ⟨by simp [step], ?_⟩
    rcases assert_expr_assumptions b t a s with h1 | ⟨x, h1⟩
    · simp [step, h1]
    · simp only [step, h1]
      exact List.take_append_of_le_length hlen
  | check_sat assumptions => exact ⟨by simp [step], by simp [step]⟩
  | get_consequences asms vars consequences => exact ⟨by simp [step], by simp [step]⟩
  | push =>
    refine ⟨?_, by simp [step]⟩
    simp only [step, push_scopes]
    exact List.take_append_of_le_length hdlt
  | pop n =>
    rcases pop_effect b n s with ⟨h1, h2⟩ | ⟨_, _, _, m, hm, _, h1, h2⟩
    · simp [step, h1, h2]
    · have hk : d < s.m_scopes.length - n := by
        have := habove
        simp only [step, get_scope_level, h2, List.length_take] at this
        omega
      have hmono := consistent_marker_mono s h d _ len m (Nat.le_of_lt hk) hd hm
      simp only [step, h1, h2, List.take_take]
      rw [Nat.min_eq_left (by omega), Nat.min_eq_left hmono]
      exact ⟨rfl, rfl⟩

/-- A run that keeps the depth above `d` throughout changes neither the lowest
`d + 1` markers nor the part of the list below the marker of level `d`. -/
theorem anchored_exec (b : backend β ε) (mid : List op) (s : solver_na2as β) (d len : Nat)
    (h : consistent s) (hd : s.m_scopes[d]? = some len)
    (habove : ∀ k, k ≤ mid.length → d < get_scope_level (exec b (mid.take k) s)) :
    (exec b mid s).m_scopes.take (d + 1) = s.m_scopes.take (d + 1) ∧
    (exec b mid s).m_assumptions.take len = s.m_assumptions.take len := by
  induction mid generalizing s with
  | nil => exact ⟨rfl, rfl⟩
  | cons o os ih =>
    have h1 : d < get_scope_level (step b o s) := by
      have := habove 1 (by simp)
      simpa [exec] using this
    obtain ⟨e1, e2⟩ := anchored_step b o s d len h hd h1
    have hd2 : (step b o s).m_scopes[d]? = some len := by
      have : ((step b o s).m_scopes.take (d + 1))[d]? = (s.m_scopes.take (d + 1))[d]? := by
        rw [e1]
      rwa [List.getElem?_take_of_lt (Nat.lt_succ_self d),
        List.getElem?_take_of_lt (Nat.lt_succ_self d), hd] at this
    have h2 : ∀ k, k ≤ os.length → d < get_scope_level (exec b (os.take k) (step b o s)) := by
      intro k hk
      have := habove (k + 1) (by simpa using hk)
      simpa [exec] using this
    obtain ⟨e3, e4⟩ := ih (step b o s) (consistent_step b o s h) hd2 h2
    rw [exec_cons]
    exact ⟨e3.trans e1, e4.trans e2⟩

/-- Every level that is open was opened by a push of the sequence and has
stayed open since. -/
theorem exists_opened_by (b : backend β ε) (s0 : solver_na2as β) (ops : List op) (d : Nat)
    (h0 : get_scope_level s0 ≤ d) (hd : d < get_scope_level (exec b ops s0)) :
    ∃ pre mid, ops = pre ++ op.push :: mid ∧ opened_by b s0 pre mid d := by
  induction ops using List.reverseRecOn with
  | nil => simp only [exec_nil] at hd; omega
  | append_singleton xs o ih =>
    rw [exec_append, exec_cons, exec_nil] at hd
    by_cases hlt : d < get_scope_level (exec b xs s0)
    · obtain ⟨pre, mid, hxs, hlev, hopen⟩ := ih hlt
      refine ⟨pre, mid ++ [o], by simp [hxs], hlev, ?_⟩
      intro k hk
      rcases Nat.lt_or_ge k (mid.length + 1) with hk1 | hk1
      · rw [List.take_append_of_le_length (by omega)]
        exact hopen k (by omega)
      · have hk2 : k = (mid ++ [o]).length := by simp at hk ⊢; omega
        rw [hk2, List.take_length]
        have : pre ++ op.push :: (mid ++ [o]) = xs ++ [o] := by simp [hxs]
        rw [this, exec_append, exec_cons, exec_nil]
        exact hd
    · by_cases ho : o = op.push
      · subst ho
        rw [get_scope_level_step_push] at hd
        refine ⟨xs, [], rfl, by omega, ?_⟩
        intro k _
        rw [List.take_nil, exec_append, exec_cons, exec_nil, get_scope_level_step_push]
        omega
      · have := get_scope_level_step_le b o (exec b xs s0) ho
        omega

end solver_na2as

namespace solver_na2as

variable {β ε : Type}

/-- While the level opened by the push after `pre` is open, its marker sits at
index `d`, holds the length the list had at that push, and the list still
starts with the list of that moment. -/
theorem opened_marker (b : backend β ε) (s0 : solver_na2as β) (pre mid : List op) (d : Nat)
    (h0 : consistent s0) (hopen : opened_by b s0 pre mid d) :
    (exec b (pre ++ op.push :: mid) s0).m_scopes[d]? =
        some (exec b pre s0).m_assumptions.length ∧
    (exec b (pre ++ op.push :: mid) s0).m_assumptions.take
        (exec b pre s0).m_assumptions.length = (exec b pre s0).m_assumptions := by
  obtain ⟨hlev, habove⟩ := hopen
  have hc1 := consistent_exec b pre s0 h0
  have hc2 := consistent_step b op.push _ hc1
  have hd2 : (step b op.push (exec b pre s0)).m_scopes[d]? =
      some (exec b pre s0).m_assumptions.length := by
    simp only [step, push_scopes]
    rw [← hlev]
    simp [get_scope_level]
  have hab : ∀ k, k ≤ mid.length →
      d < get_scope_level (exec b (mid.take k) (step b op.push (exec b pre s0))) := by
    intro k hk
    have := habove k hk
    rwa [exec_append, exec_cons] at this
  obtain ⟨e1, e2⟩ := anchored_exec b mid _ d _ hc2 hd2 hab
  rw [exec_append, exec_cons]
  constructor
  · have : ((exec b mid (step b op.push (exec b pre s0))).m_scopes.take (d + 1))[d]? =
        ((step b op.push (exec b pre s0)).m_scopes.take (d + 1))[d]? := by rw [e1]
    rwa [List.getElem?_take_of_lt (Nat.lt_succ_self d),
      List.getElem?_take_of_lt (Nat.lt_succ_self d), hd2] at this
  · rw [e2]
    simp [step]

/-- In a consistent state a `pop(n)` within the depth returns as soon as the
hook returns, and truncates both fields. -/
theorem pop_consistent (b : backend β ε) (n : Nat) (s : solver_na2as β) (h : consistent s)
    (hn : 0 < n) (hlvl : n ≤ get_scope_level s)
    (hcore : (b.pop_core n s.derived).1 = Except.ok ()) :
    ∃ m, s.m_scopes[get_scope_level s - n]? = some m ∧ m ≤ s.m_assumptions.length ∧
      pop b n s = (Except.ok (),
        { m_assumptions := s.m_assumptions.take m,
          m_scopes := s.m_scopes.take (get_scope_level s - n),
          derived := (b.pop_core n s.derived).2,
          calls := s.calls ++ [call.pop_core n] }) := by
  unfold get_scope_level at hlvl ⊢
  have hlt : s.m_scopes.length - n < s.m_scopes.length := by omega
  have hm : s.m_scopes[s.m_scopes.length - n]? = some (s.m_scopes[s.m_scopes.length - n]) :=
    List.getElem?_eq_getElem hlt
  have hle := consistent_marker_le s h _ _ hm
  exact ⟨_, hm, hle, pop_returned b n s _ hn hlvl hcore hm hle⟩

/-- C1: starting from the initial state, after any sequence of operations in
which every pop(n) has n at most the current depth, a pop(n) with n > 0 whose
backend hook returns does return, leaves the depth at d = depth - n, leaves the
list with the length recorded in the marker at index d, and leaves the list
equal, element for element, to the list as it stood at the push that opened
level d + 1 (such a push exists in the sequence).  Scenario A: push;
assert(t1,a1); push; assert(t2,a2); pop(1) gives depth 1 and [a1], then pop(1)
gives depth 0 and []. -/
theorem pop_restores_assumptions (b : backend β ε) (c : β) :
    (∀ (ops : List op) (n : Nat), valid b (ops ++ [op.pop n]) (create c) → 0 < n →
      (b.pop_core n (exec b ops (create c)).derived).1 = Except.ok () →
      (pop b n (exec b ops (create c))).1 = Except.ok () ∧
      get_scope_level (exec b (ops ++ [op.pop n]) (create c)) =
        get_scope_level (exec b ops (create c)) - n ∧
      (exec b ops (create c)).m_scopes[get_scope_level (exec b ops (create c)) - n]? =
        some (exec b (ops ++ [op.pop n]) (create c)).m_assumptions.length ∧
      (∃ pre mid, ops = pre ++ op.push :: mid ∧
        opened_by b (create c) pre mid (get_scope_level (exec b ops (create c)) - n)) ∧
      (∀ pre mid, ops = pre ++ op.push :: mid →
        opened_by b (create c) pre mid (get_scope_level (exec b ops (create c)) - n) →
        (exec b (ops ++ [op.pop n]) (create c)).m_assumptions =
          (exec b pre (create c)).m_assumptions)) ∧
    (∀ (t1 a1 t2 a2 : expr), is_uninterp_const a1 = true → is_bool a1 = true →
      is_uninterp_const a2 = true → is_bool a2 = true →
      (∀ k x, (b.pop_core k x).1 = Except.ok ()) →
      get_scope_level (exec b [op.push, op.assert_named t1 (some a1), op.push,
        op.assert_named t2 (some a2), op.pop 1] (create c)) = 1 ∧
      (exec b [op.push, op.assert_named t1 (some a1), op.push,
        op.assert_named t2 (some a2), op.pop 1] (create c)).m_assumptions = [a1] ∧
      get_scope_level (exec b [op.push, op.assert_named t1 (some a1), op.push,
        op.assert_named t2 (some a2), op.pop 1, op.pop 1] (create c)) = 0 ∧
      (exec b [op.push, op.assert_named t1 (some a1), op.push,
        op.assert_named t2 (some a2), op.pop 1, op.pop 1] (create c)).m_assumptions = []) := by
  constructor
  · intro ops n hvalid hn hcore
    have hlvl : n ≤ get_scope_level (exec b ops (create c)) := by
      have := ((valid_append b ops [op.pop n] (create c)).mp hvalid).2
      exact this.1
    have hcons := consistent_exec b ops (create c) (consistent_create c)
    obtain ⟨m, hm, hle, hpop⟩ := pop_consistent b n _ hcons hn hlvl hcore
    have hexec : exec b (ops ++ [op.pop n]) (create c) = (pop b n (exec b ops (create c))).2 := by
      rw [exec_append]; rfl
    have hlen : (List.take m (exec b ops (create c)).m_assumptions).length = m := by
      rw [List.length_take]; omega
    refine ⟨by rw [hpop], ?_, ?_, ?_, ?_⟩
    · rw [hexec, hpop]
      simp only [get_scope_level, List.length_take]
      omega
    · rw [hexec, hpop, hm]
      simp only [hlen]
    · exact exists_opened_by b (create c) ops _ (Nat.zero_le _) (by omega)
    · intro pre mid hops hopen
      have hmark := opened_marker b (create c) pre mid _ (consistent_create c) hopen
      rw [← hops] at hmark
      rw [hm] at hmark
      have hmeq : m = (exec b pre (create c)).m_assumptions.length := by
        have := hmark.1
        injection this
      rw [hexec, hpop]
      simp only
      rw [hmeq]
      exact hmark.2
  · intro t1 a1 t2 a2 h1 h2 h3 h4 hcore
    simp [exec, step, push, push_core, assert_expr, SASSERT, h1, h2, h3, h4, assert_plain,
      pop, pop_core, hcore, propagate, index, restore_assumptions, shrink, create,
      get_scope_level]

end solver_na2as

namespace solver_na2as

variable {β ε : Type}

/-- Scenario A on a backend that accepts every call: the hypotheses of
`pop_restores_assumptions` hold for the first pop(1), and the list it leaves
is the list [a1] of the moment of the second push. -/
theorem pop_restores_assumptions_witness :
    valid (backend.steady lbool.l_true) (scenario_A ++ [op.pop 1]) (create ()) ∧
    0 < 1 ∧
    ((backend.steady lbool.l_true).pop_core 1
      (exec (backend.steady lbool.l_true) scenario_A (create ())).derived).1 = Except.ok () ∧
    (exec (backend.steady lbool.l_true) scenario_A (create ())).m_scopes[1]? = some 1 ∧
    (exec (backend.steady lbool.l_true) (scenario_A ++ [op.pop 1]) (create ())).m_assumptions =
      [scenario_a1] :=
  have hv : valid (backend.steady lbool.l_true) (scenario_A ++ [op.pop 1]) (create ()) :=
    ⟨trivial, trivial, trivial, trivial, (by decide : 1 ≤ 2), trivial⟩
  have h := (pop_restores_assumptions (backend.steady lbool.l_true) ()).1 scenario_A 1 hv
    (by decide) rfl
  ⟨hv, by decide, rfl, h.2.2.1,
    h.2.2.2.2 [op.push, op.assert_named scenario_t1 (some scenario_a1)]
      [op.assert_named scenario_t2 (some scenario_a2)] rfl
      ⟨rfl, fun k hk => by
        have hk2 : k = 0 ∨ k = 1 := by simp at hk; omega
        rcases hk2 with rfl | rfl <;> decide⟩⟩

end solver_na2as

namespace solver_na2as

variable {β ε : Type}

/-- C2: in every state and for every list of extra assumptions, check_sat and
get_consequences leave the assumption list (same elements, same order) and the
scope stack exactly as they were, whatever the backend answers and also when
the backend call throws, in which case the exception is the outcome. -/
theorem queries_leave_fields (b : backend β ε) (s : solver_na2as β)
    (extra asms vars consequences : List expr) :
    (check_sat b extra s).2.m_assumptions = s.m_assumptions ∧
    (check_sat b extra s).2.m_scopes = s.m_scopes ∧
    (get_consequences b asms vars consequences s).2.m_assumptions = s.m_assumptions ∧
    (get_consequences b asms vars consequences s).2.m_scopes = s.m_scopes ∧
    (∀ e, (b.check_sat_core (s.m_assumptions ++ extra).length (s.m_assumptions ++ extra)
        s.derived).1 = Except.error e →
      (check_sat b extra s).1 = Except.error (failure.exception e) ∧
      (check_sat b extra s).2.m_assumptions = s.m_assumptions ∧
      (check_sat b extra s).2.m_scopes = s.m_scopes) ∧
    (∀ e, (b.get_consequences_core (s.m_assumptions ++ asms) vars consequences
        s.derived).1.1 = Except.error e →
      (get_consequences b asms vars consequences s).1.1 = Except.error (failure.exception e) ∧
      (get_consequences b asms vars consequences s).2.m_assumptions = s.m_assumptions ∧
      (get_consequences b asms vars consequences s).2.m_scopes = s.m_scopes) := by
  refine ⟨check_sat_assumptions b extra s, check_sat_scopes b extra s,
    get_consequences_assumptions b asms vars consequences s,
    get_consequences_scopes b asms vars consequences s, ?_, ?_⟩
  · intro e he
    refine ⟨?_, check_sat_assumptions b extra s, check_sat_scopes b extra s⟩
    rw [check_sat_eq]
    simp only [he, propagate]
  · intro e he
    refine ⟨?_, get_consequences_assumptions b asms vars consequences s,
      get_consequences_scopes b asms vars consequences s⟩
    rw [get_consequences_eq]
    simp only [he, propagate]

/-- A query on a backend whose hooks throw, in the state after Scenario A: the
exception comes out and the list is still [a1, a2]. -/
theorem queries_leave_fields_witness :
    (check_sat backend.throwing [scenario_t1]
      (exec backend.throwing scenario_A (create ()))).1 = Except.error (failure.exception ()) ∧
    (check_sat backend.throwing [scenario_t1]
      (exec backend.throwing scenario_A (create ()))).2.m_assumptions =
        [scenario_a1, scenario_a2] ∧
    (check_sat backend.throwing [scenario_t1]
      (exec backend.throwing scenario_A (create ()))).2.m_scopes = [0, 1] :=
  (queries_leave_fields backend.throwing (exec backend.throwing scenario_A (create ()))
    [scenario_t1] [] [] []).2.2.2.2.1 () rfl

/-- C3: in every state with standing list L and for every list extra,
check_sat(extra) calls check_sat_core exactly once, with the list L ++ extra
and the count |L| + |extra|, and its outcome is the outcome of that call: the
status sat / unsat / unknown comes back unchanged.  Scenario B: with
L = [a1, a2] and no extra assumptions the backend is called with exactly
[a1, a2], and L is [a1, a2] afterwards. -/
theorem check_sat_delegates (b : backend β ε) (s : solver_na2as β) (extra : List expr) :
    (check_sat b extra s).2.calls =
      s.calls ++ [call.check_sat_core (s.m_assumptions.length + extra.length)
        (s.m_assumptions ++ extra)] ∧
    (check_sat b extra s).2.derived =
      (b.check_sat_core (s.m_assumptions.length + extra.length) (s.m_assumptions ++ extra)
        s.derived).2 ∧
    (check_sat b extra s).1 =
      propagate (b.check_sat_core (s.m_assumptions.length + extra.length)
        (s.m_assumptions ++ extra) s.derived).1 ∧
    (∀ status, (b.check_sat_core (s.m_assumptions.length + extra.length)
        (s.m_assumptions ++ extra) s.derived).1 = Except.ok status →
      (check_sat b extra s).1 = Except.ok status) ∧
    (∀ a1 a2, s.m_assumptions = [a1, a2] →
      (check_sat b [] s).2.calls = s.calls ++ [call.check_sat_core 2 [a1, a2]] ∧
      (check_sat b [] s).2.m_assumptions = [a1, a2]) := by
  refine ⟨?_, ?_, ?_, ?_, ?_⟩
  · rw [check_sat_eq, List.length_append]
  · rw [check_sat_eq, List.length_append]
  · rw [check_sat_eq, List.length_append]
  · intro status h
    rw [check_sat_eq, List.length_append]
    simp only [h, propagate]
  · intro a1 a2 h
    rw [check_sat_eq]
    simp [h]

/-- Scenario B on a backend that answers unsat, in the state after Scenario A:
the backend is called with exactly [a1, a2], the answer comes back, and the
list is [a1, a2] afterwards. -/
theorem check_sat_delegates_witness :
    (exec (backend.steady lbool.l_false) scenario_A (create ())).m_assumptions =
      [scenario_a1, scenario_a2] ∧
    (check_sat (backend.steady lbool.l_false) []
      (exec (backend.steady lbool.l_false) scenario_A (create ()))).1 =
        Except.ok lbool.l_false ∧
    (check_sat (backend.steady lbool.l_false) []
      (exec (backend.steady lbool.l_false) scenario_A (create ()))).2.calls =
        (exec (backend.steady lbool.l_false) scenario_A (create ())).calls ++
          [call.check_sat_core 2 [scenario_a1, scenario_a2]] ∧
    (check_sat (backend.steady lbool.l_false) []
      (exec (backend.steady lbool.l_false) scenario_A (create ()))).2.m_assumptions =
        [scenario_a1, scenario_a2] :=
  have h := check_sat_delegates (backend.steady lbool.l_false)
    (exec (backend.steady lbool.l_false) scenario_A (create ())) []
  ⟨rfl, h.2.2.2.1 lbool.l_false rfl, (h.2.2.2.2 scenario_a1 scenario_a2 rfl).1,
    (h.2.2.2.2 scenario_a1 scenario_a2 rfl).2⟩

/-- C4: pop(n) with n greater than the current depth ends with an error and
leaves the assumption list and the scope stack unchanged, whatever the backend
does; when the hook returns, the error is the violated check n <= lvl of line
82.  In a consistent state, with a hook that returns, pop(n) fails if and only
if n exceeds get_scope_level(). -/
theorem pop_beyond_depth (b : backend β ε) (s : solver_na2as β) (n : Nat) :
    (get_scope_level s < n →
      (∃ e, (pop b n s).1 = Except.error e) ∧
      (pop b n s).2.m_assumptions = s.m_assumptions ∧
      (pop b n s).2.m_scopes = s.m_scopes) ∧
    (get_scope_level s < n → (b.pop_core n s.derived).1 = Except.ok () →
      (pop b n s).1 = Except.error (failure.assertion_violation 82)) ∧
    (consistent s → (0 < n → (b.pop_core n s.derived).1 = Except.ok ()) →
      ((∃ e, (pop b n s).1 = Except.error e) ↔ get_scope_level s < n)) := by
  have hbeyond : get_scope_level s < n →
      (∃ e, (pop b n s).1 = Except.error e) ∧
      (pop b n s).2.m_assumptions = s.m_assumptions ∧
      (pop b n s).2.m_scopes = s.m_scopes := by
    intro hlt
    have hn : 0 < n := by omega
    cases hc : (b.pop_core n s.derived).1 with
    | error e => rw [pop_thrown b n s e hn hc]; exact ⟨⟨_, rfl⟩, rfl, rfl⟩
    | ok u => rw [pop_beyond b n s hlt hc]; exact ⟨⟨_, rfl⟩, rfl, rfl⟩
  refine ⟨hbeyond, ?_, ?_⟩
  · intro hlt hc
    rw [pop_beyond b n s hlt hc]
  · intro hcons hcore
    constructor
    · rintro ⟨e, he⟩
      by_contra hle
      have hle : n ≤ get_scope_level s := by omega
      by_cases hn : 0 < n
      · obtain ⟨m, _, _, hpop⟩ := pop_consistent b n s hcons hn hle (hcore hn)
        rw [hpop] at he
        cases he
      · simp [pop, hn] at he
    · intro hlt
      exact (hbeyond hlt).1

/-- A pop(2) at depth 1 on a backend that accepts every call: the outcome is
the violated check and both fields are as before. -/
theorem pop_beyond_depth_witness :
    get_scope_level (exec (backend.steady lbool.l_true) [op.push] (create ())) < 2 ∧
    (pop (backend.steady lbool.l_true) 2
      (exec (backend.steady lbool.l_true) [op.push] (create ()))).1 =
        Except.error (failure.assertion_violation 82) ∧
    (pop (backend.steady lbool.l_true) 2
      (exec (backend.steady lbool.l_true) [op.push] (create ()))).2.m_assumptions = [] ∧
    (pop (backend.steady lbool.l_true) 2
      (exec (backend.steady lbool.l_true) [op.push] (create ()))).2.m_scopes = [0] :=
  have h := pop_beyond_depth (backend.steady lbool.l_true)
    (exec (backend.steady lbool.l_true) [op.push] (create ())) 2
  ⟨by decide, h.2.1 (by decide) rfl, (h.1 (by decide)).2.1, (h.1 (by decide)).2.2⟩

/-- C5: for every state and every n > 0, if the hook pop_core(n) throws, pop(n)
ends with that exception and the assumption list and the scope stack are
exactly what they were: the hook is the first thing pop does, and its call is
the only thing recorded. -/
theorem pop_atomic (b : backend β ε) (s : solver_na2as β) (n : Nat) (e : ε) (hn : 0 < n)
    (hfail : (b.pop_core n s.derived).1 = Except.error e) :
    (pop b n s).1 = Except.error (failure.exception e) ∧
    (pop b n s).2.m_assumptions = s.m_assumptions ∧
    (pop b n s).2.m_scopes = s.m_scopes ∧
    (pop b n s).2.calls = s.calls ++ [call.pop_core n] := by
  rw [pop_thrown b n s e hn hfail]
  exact ⟨rfl, rfl, rfl, rfl⟩

/-- A pop(1) after Scenario A on a backend whose hooks throw: the list is
still [a1, a2] and the markers are still [0, 1]. -/
theorem pop_atomic_witness :
    (0 < 1) ∧
    (backend.throwing.pop_core 1 (exec backend.throwing scenario_A (create ())).derived).1 =
      Except.error () ∧
    (pop backend.throwing 1 (exec backend.throwing scenario_A (create ()))).1 =
      Except.error (failure.exception ()) ∧
    (pop backend.throwing 1 (exec backend.throwing scenario_A (create ()))).2.m_assumptions =
      [scenario_a1, scenario_a2] ∧
    (pop backend.throwing 1 (exec backend.throwing scenario_A (create ()))).2.m_scopes =
      [0, 1] :=
  have h := pop_atomic backend.throwing (exec backend.throwing scenario_A (create ())) 1 ()
    (by decide) rfl
  ⟨by decide, rfl, h.1, h.2.1, h.2.2.1⟩

end solver_na2as

/-! ## The depth -/

namespace solver_na2as

variable {β ε : Type}

theorem pop_zero (b : backend β ε) (s : solver_na2as β) : pop b 0 s = (Except.ok (), s) := by
  simp [pop]

/-- In a consistent state a `pop(n)` within the depth whose hook returns (when
it is called at all) returns and lowers the depth by `n`. -/
theorem pop_lowers (b : backend β ε) (n : Nat) (s : solver_na2as β) (h : consistent s)
    (hlvl : n ≤ get_scope_level s)
    (hcore : 0 < n → (b.pop_core n s.derived).1 = Except.ok ()) :
    (pop b n s).1 = Except.ok () ∧
      get_scope_level (pop b n s).2 = get_scope_level s - n := by
  by_cases hn : 0 < n
  · obtain ⟨m, _, _, hpop⟩ := pop_consistent b n s h hn hlvl (hcore hn)
    rw [hpop]
    refine ⟨rfl, ?_⟩
    simp only [get_scope_level, List.length_take]
    unfold get_scope_level at hlvl
    omega
  · have : n = 0 := by omega
    subst this
    rw [pop_zero]
    exact ⟨rfl, rfl⟩

/-- The depth after a sequence, from any consistent state. -/
theorem get_scope_level_exec (b : backend β ε) (ops : List op) (s : solver_na2as β)
    (h : consistent s) (hvalid : valid b ops s) (hret : pops_return b ops s) :
    get_scope_level (exec b ops s) + popped ops = get_scope_level s + pushes ops := by
  induction ops generalizing s with
  | nil => simp [exec_nil, popped, pushes]
  | cons o os ih =>
    have hstep := ih (step b o s) (consistent_step b o s h) hvalid.2 hret.2
    rw [exec_cons]
    cases o with
    | assert t =>
      simp only [popped, pushes]
      simpa [step, get_scope_level] using hstep
    | assert_named t a =>
      simp only [popped, pushes]
      simpa [step, get_scope_level] using hstep
    | check_sat assumptions =>
      simp only [popped, pushes]
      simpa [step, get_scope_level] using hstep
    | get_consequences asms vars consequences =>
      simp only [popped, pushes]
      simpa [step, get_scope_level] using hstep
    | push =>
      simp only [popped, pushes]
      rw [get_scope_level_step_push] at hstep
      omega
    | pop n =>
      simp only [popped, pushes]
      have hlvl : n ≤ get_scope_level s := hvalid.1
      have hlow := (pop_lowers b n s h hlvl (hret.1 n rfl)).2
      have : get_scope_level (step b (op.pop n) s) = get_scope_level s - n := hlow
      rw [this] at hstep
      omega

theorem exec_replicate_push (b : backend β ε) (k : Nat) (s : solver_na2as β) :
    get_scope_level (exec b (List.replicate k op.push) s) = get_scope_level s + k := by
  induction k generalizing s with
  | zero => rfl
  | succ k ih =>
    rw [List.replicate_succ, exec_cons, ih, get_scope_level_step_push]
    omega

theorem valid_replicate_push (b : backend β ε) (k : Nat) (s : solver_na2as β) :
    valid b (List.replicate k op.push) s := by
  induction k generalizing s with
  | zero => exact trivial
  | succ k ih => exact ⟨trivial, ih _⟩

theorem valid_replicate_pop (b : backend β ε) (j : Nat) (s : solver_na2as β)
    (h : j ≤ get_scope_level s) : valid b (List.replicate j (op.pop 1)) s := by
  induction j generalizing s with
  | zero => exact trivial
  | succ j ih =>
    refine ⟨by show 1 ≤ get_scope_level s; omega, ih _ ?_⟩
    rcases pop_effect b 1 s with ⟨_, h2⟩ | ⟨_, _, _, m, _, _, _, h2⟩
    · simp only [step, get_scope_level, h2]
      unfold get_scope_level at h
      omega
    · simp only [step, get_scope_level, h2, List.length_take]
      unfold get_scope_level at h
      omega

theorem pushes_replicate (k j : Nat) :
    pushes (List.replicate k op.push ++ List.replicate j (op.pop 1)) = k := by
  induction k with
  | zero =>
    induction j with
    | zero => rfl
    | succ j ih => simpa [List.replicate_succ, pushes] using ih
  | succ k ih => simp [List.replicate_succ, pushes, ih]

theorem popped_replicate (k j : Nat) :
    popped (List.replicate k op.push ++ List.replicate j (op.pop 1)) = j := by
  induction k with
  | zero =>
    induction j with
    | zero => rfl
    | succ j ih =>
      have : popped (List.replicate j (op.pop 1)) = j := by simpa using ih
      simp [List.replicate_succ, popped, this]
  | succ k ih => simpa [List.replicate_succ, popped] using ih

/-- C6: get_scope_level() is 0 in the initial state, whose assumption list is
empty; after any sequence of operations from the initial state in which every
pop(n) is issued at a depth of at least n and returns from its hook, it equals
the number of push calls minus the sum of the n of the pop calls; after k
pushes and j < k calls of pop(1) it is k - j.  push raises it by exactly 1
whatever the hook does, a pop(n) within the depth lowers it by exactly n, and
assert(t), assert(t,a), check_sat and get_consequences leave it unchanged. -/
theorem get_scope_level_counts (b : backend β ε) (c : β) :
    get_scope_level (create c) = 0 ∧ (create c).m_assumptions = [] ∧
    (∀ ops, valid b ops (create c) → pops_return b ops (create c) →
      popped ops ≤ pushes ops ∧
      get_scope_level (exec b ops (create c)) = pushes ops - popped ops) ∧
    (∀ k j, j < k →
      pops_return b (List.replicate k op.push ++ List.replicate j (op.pop 1)) (create c) →
      get_scope_level
        (exec b (List.replicate k op.push ++ List.replicate j (op.pop 1)) (create c)) = k - j) ∧
    (∀ s : solver_na2as β, get_scope_level (push b s).2 = get_scope_level s + 1) ∧
    (∀ (s : solver_na2as β) n, consistent s → n ≤ get_scope_level s →
      (0 < n → (b.pop_core n s.derived).1 = Except.ok ()) →
      (pop b n s).1 = Except.ok () ∧ get_scope_level (pop b n s).2 = get_scope_level s - n) ∧
    (∀ (s : solver_na2as β) t, get_scope_level (assert_plain b t s).2 = get_scope_level s) ∧
    (∀ (s : solver_na2as β) t a, get_scope_level (assert_expr b t a s).2 = get_scope_level s) ∧
    (∀ (s : solver_na2as β) extra,
      get_scope_level (check_sat b extra s).2 = get_scope_level s) ∧
    (∀ (s : solver_na2as β) asms vars consequences,
      get_scope_level (get_consequences b asms vars consequences s).2 = get_scope_level s) := by
  refine ⟨rfl, rfl, ?_, ?_, ?_, ?_, ?_, ?_, ?_, ?_⟩
  · intro ops hvalid hret
    have h := get_scope_level_exec b ops (create c) (consistent_create c) hvalid hret
    have h0 : get_scope_level (create c) = 0 := rfl
    omega
  · intro k j hjk hret
    have hvalid : valid b (List.replicate k op.push ++ List.replicate j (op.pop 1)) (create c) := by
      rw [valid_append]
      refine ⟨valid_replicate_push b k _, valid_replicate_pop b j _ ?_⟩
      rw [exec_replicate_push]
      omega
    have h := get_scope_level_exec b _ (create c) (consistent_create c) hvalid hret
    rw [pushes_replicate, popped_replicate] at h
    have h0 : get_scope_level (create c) = 0 := rfl
    omega
  · intro s
    simp [get_scope_level]
  · intro s n hcons hlvl hcore
    exact pop_lowers b n s hcons hlvl hcore
  · intro s t
    rfl
  · intro s t a
    simp [get_scope_level]
  · intro s extra
    simp [get_scope_level]
  · intro s asms vars consequences
    simp [get_scope_level]

/-- Three pushes and two pop(1) on a backend that accepts every call leave the
depth at 3 - 2 = 1. -/
theorem get_scope_level_counts_witness :
    get_scope_level (exec (backend.steady lbool.l_true)
      (List.replicate 3 op.push ++ List.replicate 2 (op.pop 1)) (create ())) = 3 - 2 :=
  (get_scope_level_counts (backend.steady lbool.l_true) ()).2.2.2.1 3 2 (by decide)
    (show pops_return (backend.steady lbool.l_true)
        [op.push, op.push, op.push, op.pop 1, op.pop 1] (create ()) from
      ⟨fun _ _ _ => rfl, fun _ _ _ => rfl, fun _ _ _ => rfl, fun _ _ _ => rfl,
        fun _ _ _ => rfl, trivial⟩)

end solver_na2as

/-! ## Named assertions, consequences, and push -/

namespace solver_na2as

variable {β ε : Type}

/-- C7: in every state, for every formula t and every label a (a boolean
uninterpreted constant), assert(t, a) forwards exactly one formula to the plain
assert of the backend, the implication with antecedent a and consequent t, and
makes a the new last element of the assumption list: the length grows by
exactly 1, the earlier elements stay, a label already present is added again,
and the scope stack and the depth are unchanged.  The outcome is the outcome of
the plain assert. -/
theorem assert_expr_named (b : backend β ε) (s : solver_na2as β) (t a : expr)
    (hconst : is_uninterp_const a = true) (hbool : is_bool a = true) :
    (assert_expr b t (some a) s).2.calls = s.calls ++ [call.assert_expr (expr.implies a t)] ∧
    (assert_expr b t (some a) s).2.derived = (b.assert_expr (expr.implies a t) s.derived).2 ∧
    (assert_expr b t (some a) s).1 = propagate (b.assert_expr (expr.implies a t) s.derived).1 ∧
    (assert_expr b t (some a) s).2.m_assumptions = s.m_assumptions ++ [a] ∧
    (assert_expr b t (some a) s).2.m_assumptions.length = s.m_assumptions.length + 1 ∧
    (assert_expr b t (some a) s).2.m_assumptions.take s.m_assumptions.length =
      s.m_assumptions ∧
    (assert_expr b t (some a) s).2.m_assumptions.getLast? = some a ∧
    (assert_expr b t (some a) s).2.m_scopes = s.m_scopes ∧
    get_scope_level (assert_expr b t (some a) s).2 = get_scope_level s := by
  rw [assert_expr_label b t a s hconst hbool]
  refine ⟨rfl, rfl, rfl, rfl, ?_, ?_, ?_, rfl, rfl⟩
  · simp
  · simp
  · simp

/-- Asserting t2 under the label a1 a second time, after Scenario A, on a
backend that accepts every call: a1 => t2 is forwarded and the list becomes
[a1, a2, a1]. -/
theorem assert_expr_named_witness :
    is_uninterp_const scenario_a1 = true ∧ is_bool scenario_a1 = true ∧
    (assert_expr (backend.steady lbool.l_true) scenario_t2 (some scenario_a1)
      (exec (backend.steady lbool.l_true) scenario_A (create ()))).2.calls =
        (exec (backend.steady lbool.l_true) scenario_A (create ())).calls ++
          [call.assert_expr (expr.implies scenario_a1 scenario_t2)] ∧
    (assert_expr (backend.steady lbool.l_true) scenario_t2 (some scenario_a1)
      (exec (backend.steady lbool.l_true) scenario_A (create ()))).2.m_assumptions =
        [scenario_a1, scenario_a2] ++ [scenario_a1] :=
  have h := assert_expr_named (backend.steady lbool.l_true)
    (exec (backend.steady lbool.l_true) scenario_A (create ())) scenario_t2 scenario_a1 rfl rfl
  ⟨rfl, rfl, h.1, h.2.2.2.1⟩

/-- C8: in every state with standing list L, get_consequences(asms, vars) calls
get_consequences_core exactly once, with the assumption list L ++ asms and with
vars and the consequences vector as given, and the status and the consequences
of that call come back unchanged; the two fields are as before. -/
theorem get_consequences_delegates (b : backend β ε) (s : solver_na2as β)
    (asms vars consequences : List expr) :
    (get_consequences b asms vars consequences s).2.calls =
      s.calls ++ [call.get_consequences_core (s.m_assumptions ++ asms) vars] ∧
    (get_consequences b asms vars consequences s).2.derived =
      (b.get_consequences_core (s.m_assumptions ++ asms) vars consequences s.derived).2 ∧
    (get_consequences b asms vars consequences s).1.1 =
      propagate
        (b.get_consequences_core (s.m_assumptions ++ asms) vars consequences s.derived).1.1 ∧
    (get_consequences b asms vars consequences s).1.2 =
      (b.get_consequences_core (s.m_assumptions ++ asms) vars consequences s.derived).1.2 ∧
    (∀ status out,
      (b.get_consequences_core (s.m_assumptions ++ asms) vars consequences s.derived).1 =
        (Except.ok status, out) →
      (get_consequences b asms vars consequences s).1 = (Except.ok status, out)) ∧
    (get_consequences b asms vars consequences s).2.m_assumptions = s.m_assumptions ∧
    (get_consequences b asms vars consequences s).2.m_scopes = s.m_scopes := by
  rw [get_consequences_eq]
  refine ⟨rfl, rfl, rfl, rfl, ?_, rfl, rfl⟩
  intro status out h
  simp only [h, propagate]

/-- A query for consequences after Scenario A on a backend that answers sat and
leaves the consequences as given: the answer and the consequences come back. -/
theorem get_consequences_delegates_witness :
    (get_consequences (backend.steady lbool.l_true) [scenario_t1] [scenario_t2] [scenario_a2]
      (exec (backend.steady lbool.l_true) scenario_A (create ()))).1 =
        (Except.ok lbool.l_true, [scenario_a2]) ∧
    (get_consequences (backend.steady lbool.l_true) [scenario_t1] [scenario_t2] [scenario_a2]
      (exec (backend.steady lbool.l_true) scenario_A (create ()))).2.calls =
        (exec (backend.steady lbool.l_true) scenario_A (create ())).calls ++
          [call.get_consequences_core [scenario_a1, scenario_a2, scenario_t1] [scenario_t2]] :=
  have h := get_consequences_delegates (backend.steady lbool.l_true)
    (exec (backend.steady lbool.l_true) scenario_A (create ()))
    [scenario_t1] [scenario_t2] [scenario_a2]
  ⟨h.2.2.2.2.1 lbool.l_true [scenario_a2] rfl, h.1⟩

/-- C10: in every state, push() appends exactly one marker to the scope stack,
the length the assumption list has at the call, leaves the assumption list and
the existing markers unchanged, and calls push_core exactly once; the marker is
recorded whatever push_core does, and the outcome of push is the outcome of
push_core. -/
theorem push_records_marker (b : backend β ε) (s : solver_na2as β) :
    (push b s).2.m_scopes = s.m_scopes ++ [s.m_assumptions.length] ∧
    (push b s).2.m_assumptions = s.m_assumptions ∧
    (push b s).2.calls = s.calls ++ [call.push_core] ∧
    (push b s).2.derived = (b.push_core s.derived).2 ∧
    (push b s).1 = propagate (b.push_core s.derived).1 :=
  ⟨rfl, rfl, rfl, rfl, rfl⟩

end solver_na2as

/-! ## The lifetime of a standing literal -/

namespace solver_na2as

variable {β ε : Type}

theorem pops_target_ge_mono (b : backend β ε) (k d : Nat) (hkd : d ≤ k) (ops : List op)
    (s : solver_na2as β) (h : pops_target_ge b k ops s) : pops_target_ge b d ops s := by
  induction ops generalizing s with
  | nil => exact trivial
  | cons o os ih =>
    refine ⟨fun n hn => ?_, ih _ h.2⟩
    have := h.1 n hn
    omega

/-- An entry at index `i` whose level is `d`, in the sense that every marker
from index `d` on lies above `i`, survives any operation other than a pop to a
depth below `d`, at the same index and with its level still `d`. -/
theorem kept_step (b : backend β ε) (o : op) (s : solver_na2as β) (d i : Nat) (a : expr)
    (hd : d ≤ get_scope_level s) (ha : s.m_assumptions[i]? = some a)
    (hmark : ∀ j m, d ≤ j → s.m_scopes[j]? = some m → i < m)
    (hpop : ∀ n, o = op.pop n → n ≤ get_scope_level s ∧ d ≤ get_scope_level s - n) :
    d ≤ get_scope_level (step b o s) ∧ (step b o s).m_assumptions[i]? = some a ∧
    (∀ j m, d ≤ j → (step b o s).m_scopes[j]? = some m → i < m) := by
  have hi : i < s.m_assumptions.length := (List.getElem?_eq_some_iff.mp ha).1
  cases o with
  | assert t => exact ⟨hd, ha, hmark⟩
  | assert_named t a2 =>
    refine ⟨by simpa [step, get_scope_level] using hd, ?_, by simpa [step] using hmark⟩
    rcases assert_expr_assumptions b t a2 s with h1 | ⟨x, h1⟩
    · simp only [step, h1]; exact ha
    · simp only [step, h1]
      rw [List.getElem?_append_left hi]; exact ha
  | check_sat assumptions =>
    exact ⟨by simpa [step, get_scope_level] using hd, by simpa [step] using ha,
      by simpa [step] using hmark⟩
  | get_consequences asms vars consequences =>
    exact ⟨by simpa [step, get_scope_level] using hd, by simpa [step] using ha,
      by simpa [step] using hmark⟩
  | push =>
    refine ⟨by rw [get_scope_level_step_push]; omega, ha, ?_⟩
    intro j m hj hm
    simp only [step, push_scopes] at hm
    rcases Nat.lt_or_ge j s.m_scopes.length with hlt | hge
    · rw [List.getElem?_append_left hlt] at hm
      exact hmark j m hj hm
    · rw [List.getElem?_append_right hge] at hm
      have hm2 := List.getElem?_eq_some_iff.mp hm
      obtain ⟨hlen, hval⟩ := hm2
      simp only [List.length_singleton] at hlen
      have hz : j - s.m_scopes.length = 0 := by omega
      simp only [hz, List.getElem_cons_zero] at hval
      omega
  | pop n =>
    obtain ⟨hn1, hn2⟩ := hpop n rfl
    unfold get_scope_level at hd hn1 hn2
    rcases pop_effect b n s with ⟨h1, h2⟩ | ⟨_, _, _, m0, hm0, _, h1, h2⟩
    · refine ⟨by simpa [step, get_scope_level, h2] using hd, by simpa [step, h1] using ha, ?_⟩
      simpa [step, h2] using hmark
    · have him : i < m0 := hmark _ m0 hn2 hm0
      refine ⟨?_, ?_, ?_⟩
      · simp only [step, get_scope_level, h2, List.length_take]
        omega
      · simp only [step, h1]
        rw [List.getElem?_take_of_lt him]; exact ha
      · intro j m hj hm
        simp only [step, h2] at hm
        rw [List.getElem?_take] at hm
        split at hm
        · exact hmark j m hj hm
        · cases hm

/-- An entry of level `d` survives, at its index, any run all of whose pops have
a target depth of at least `d`. -/
theorem kept_exec (b : backend β ε) (ops : List op) (s : solver_na2as β) (d i : Nat) (a : expr)
    (hd : d ≤ get_scope_level s) (ha : s.m_assumptions[i]? = some a)
    (hmark : ∀ j m, d ≤ j → s.m_scopes[j]? = some m → i < m)
    (hpop : pops_target_ge b d ops s) :
    (exec b ops s).m_assumptions[i]? = some a := by
  induction ops generalizing s with
  | nil => exact ha
  | cons o os ih =>
    obtain ⟨h1, h2, h3⟩ := kept_step b o s d i a hd ha hmark hpop.1
    exact ih _ h1 h2 h3 hpop.2

/-- Right after `assert_expr(t, a)` at depth `d` the new entry has level `d`. -/
theorem kept_after_assert (b : backend β ε) (s : solver_na2as β) (t a : expr)
    (hconst : is_uninterp_const a = true) (hbool : is_bool a = true) :
    get_scope_level s ≤ get_scope_level (assert_expr b t (some a) s).2 ∧
    (assert_expr b t (some a) s).2.m_assumptions[s.m_assumptions.length]? = some a ∧
    (∀ j m, get_scope_level s ≤ j → (assert_expr b t (some a) s).2.m_scopes[j]? = some m →
      s.m_assumptions.length < m) := by
  rw [assert_expr_label b t a s hconst hbool]
  refine ⟨Nat.le_refl _, by simp, ?_⟩
  intro j m hj hm
  have := (List.getElem?_eq_some_iff.mp hm).1
  simp only [get_scope_level] at hj this
  omega

/-- C9: an entry of the assumption list is never removed nor moved by a plain
assert(t), by an assert(t, a), by push, by check_sat or by get_consequences, in
any state; and the entry placed by assert(t, a) at depth d is still at its
index after any sequence of operations all of whose pops have a target depth
above d, so that only a pop whose target depth is at or below d removes it. -/
theorem standing_literal_lifetime (b : backend β ε) :
    (∀ (s : solver_na2as β) (i : Nat) (x : expr), s.m_assumptions[i]? = some x →
      (∀ t, (assert_plain b t s).2.m_assumptions[i]? = some x) ∧
      (∀ t a, (assert_expr b t a s).2.m_assumptions[i]? = some x) ∧
      (push b s).2.m_assumptions[i]? = some x ∧
      (∀ extra, (check_sat b extra s).2.m_assumptions[i]? = some x) ∧
      (∀ asms vars consequences,
        (get_consequences b asms vars consequences s).2.m_assumptions[i]? = some x)) ∧
    (∀ (s : solver_na2as β) (t a : expr) (ops : List op),
      is_uninterp_const a = true → is_bool a = true →
      pops_target_ge b (get_scope_level s + 1) ops (assert_expr b t (some a) s).2 →
      (assert_expr b t (some a) s).2.m_assumptions[s.m_assumptions.length]? = some a ∧
      (exec b ops (assert_expr b t (some a) s).2).m_assumptions[s.m_assumptions.length]? =
        some a) := by
  constructor
  · intro s i x hx
    have hi : i < s.m_assumptions.length := (List.getElem?_eq_some_iff.mp hx).1
    refine ⟨fun t => hx, fun t a => ?_, hx, fun extra => ?_, fun asms vars consequences => ?_⟩
    · rcases assert_expr_assumptions b t a s with h1 | ⟨y, h1⟩
      · rw [h1]; exact hx
      · rw [h1, List.getElem?_append_left hi]; exact hx
    · rw [check_sat_assumptions]; exact hx
    · rw [get_consequences_assumptions]; exact hx
  · intro s t a ops hconst hbool hpop
    obtain ⟨h1, h2, h3⟩ := kept_after_assert b s t a hconst hbool
    exact ⟨h2, kept_exec b ops _ (get_scope_level s) _ a h1 h2 h3
      (pops_target_ge_mono b _ _ (Nat.le_succ _) ops _ hpop)⟩

end solver_na2as

namespace solver_na2as

/-- The entry a1 placed at depth 1 is still at index 0 after push,
assert(t2, a2), push, pop(1) (target depth 2) and a query. -/
theorem standing_literal_lifetime_witness :
    pops_target_ge (backend.steady lbool.l_true) 2
      [op.push, op.assert_named scenario_t2 (some scenario_a2), op.push, op.pop 1,
        op.check_sat []]
      (assert_expr (backend.steady lbool.l_true) scenario_t1 (some scenario_a1)
        (exec (backend.steady lbool.l_true) [op.push] (create ()))).2 ∧
    (exec (backend.steady lbool.l_true)
      [op.push, op.assert_named scenario_t2 (some scenario_a2), op.push, op.pop 1,
        op.check_sat []]
      (assert_expr (backend.steady lbool.l_true) scenario_t1 (some scenario_a1)
        (exec (backend.steady lbool.l_true) [op.push] (create ()))).2).m_assumptions[0]? =
      some scenario_a1 :=
  have hp : pops_target_ge (backend.steady lbool.l_true) 2
      [op.push, op.assert_named scenario_t2 (some scenario_a2), op.push, op.pop 1,
        op.check_sat []]
      (assert_expr (backend.steady lbool.l_true) scenario_t1 (some scenario_a1)
        (exec (backend.steady lbool.l_true) [op.push] (create ()))).2 := by
    refine ⟨?_, ?_, ?_, ?_, ?_, trivial⟩ <;> intro n h <;> cases h
    exact ⟨by decide, by decide⟩
  ⟨hp, ((standing_literal_lifetime (backend.steady lbool.l_true)).2
    (exec (backend.steady lbool.l_true) [op.push] (create ())) scenario_t1 scenario_a1
    [op.push, op.assert_named scenario_t2 (some scenario_a2), op.push, op.pop 1,
      op.check_sat []] rfl rfl hp).2⟩

end solver_na2as

/-! ## Invariants of the reachable states -/

namespace solver_na2as

variable {β ε : Type}

/-- C11: in every state reached from the initial state by a sequence in which
every pop(n) has n at most the depth, the markers are non-decreasing from bottom
to top of the scope stack, and each marker equals the length the assumption
list had at the push that created it: the marker at index d belongs to a push
of the sequence that opened level d + 1, open since, and holds the length of
the list at that push. -/
theorem markers_nondecreasing (b : backend β ε) (c : β) (ops : List op)
    (hvalid : valid b ops (create c)) :
    (exec b ops (create c)).m_scopes.Pairwise (fun x y => x ≤ y) ∧
    (∀ (i j x y : Nat), i ≤ j → (exec b ops (create c)).m_scopes[i]? = some x →
      (exec b ops (create c)).m_scopes[j]? = some y → x ≤ y) ∧
    (∀ (d m : Nat), (exec b ops (create c)).m_scopes[d]? = some m →
      (∃ pre mid, ops = pre ++ op.push :: mid ∧ opened_by b (create c) pre mid d ∧
        (exec b pre (create c)).m_assumptions.length = m) ∧
      (∀ pre mid, ops = pre ++ op.push :: mid → opened_by b (create c) pre mid d →
        (exec b pre (create c)).m_assumptions.length = m)) := by
  -- the statement is scoped to sequences within the contract of pop; the invariant used below
  -- holds after any sequence, since a pop beyond the depth ends at its check and changes nothing
  have _ := hvalid
  have hcons := consistent_exec b ops (create c) (consistent_create c)
  refine ⟨?_, ?_, ?_⟩
  · have h := hcons
    unfold consistent at h
    rw [List.pairwise_append] at h
    exact h.1
  · intro i j x y hij hx hy
    exact consistent_marker_mono _ hcons i j x y hij hx hy
  · intro d m hm
    have hd : d < get_scope_level (exec b ops (create c)) :=
      (List.getElem?_eq_some_iff.mp hm).1
    have hall : ∀ pre mid, ops = pre ++ op.push :: mid → opened_by b (create c) pre mid d →
        (exec b pre (create c)).m_assumptions.length = m := by
      intro pre mid hops hopen
      have hmark := (opened_marker b (create c) pre mid d (consistent_create c) hopen).1
      rw [← hops, hm] at hmark
      injection hmark with hmark
      exact hmark.symm
    obtain ⟨pre, mid, hops, hopen⟩ :=
      exists_opened_by b (create c) ops d (Nat.zero_le _) hd
    exact ⟨⟨pre, mid, hops, hopen, hall pre mid hops hopen⟩, hall⟩

/-- After Scenario A the markers are [0, 1]: the marker at index 1 is the
length of the list [a1] at the second push. -/
theorem markers_nondecreasing_witness :
    valid (backend.steady lbool.l_true) scenario_A (create ()) ∧
    (exec (backend.steady lbool.l_true) scenario_A (create ())).m_scopes[1]? = some 1 ∧
    (exec (backend.steady lbool.l_true)
      [op.push, op.assert_named scenario_t1 (some scenario_a1)] (create ())).m_assumptions.length
        = 1 :=
  have hv : valid (backend.steady lbool.l_true) scenario_A (create ()) :=
    ⟨trivial, trivial, trivial, trivial, trivial⟩
  ⟨hv, rfl,
    ((markers_nondecreasing (backend.steady lbool.l_true) () scenario_A hv).2.2 1 1 rfl).2
      [op.push, op.assert_named scenario_t1 (some scenario_a1)]
      [op.assert_named scenario_t2 (some scenario_a2)] rfl
      ⟨rfl, fun k hk => by
        have hk2 : k = 0 ∨ k = 1 := by simp at hk; omega
        rcases hk2 with rfl | rfl <;> decide⟩⟩

/-- C13: pop(0) is a no-op in every state: it returns, the assumption list, the
scope stack and the state of the backend are unchanged, and no call is made to
the backend, so pop_core is not called at all. -/
theorem pop_zero_noop (b : backend β ε) (s : solver_na2as β) :
    pop b 0 s = (Except.ok (), s) ∧
    (pop b 0 s).2.m_assumptions = s.m_assumptions ∧
    (pop b 0 s).2.m_scopes = s.m_scopes ∧
    (pop b 0 s).2.calls = s.calls ∧
    (∀ n, call.pop_core n ∉ (pop b 0 s).2.calls.drop s.calls.length) := by
  rw [pop_zero]
  refine ⟨rfl, rfl, rfl, rfl, ?_⟩
  intro n
  simp

/-- C15: in every state reached from the initial state by a sequence in which
every pop(n) has n at most the depth, every marker is at most the length of the
assumption list; hence for every n with 0 < n <= depth the index depth - n read
by pop(n) is below the size of the scope stack, the read returns a marker, and
both shrinks are truncations: neither asks for more than the current size.
Accordingly pop(n) itself never ends at a bounds check or at its assertion: its
outcome is the outcome of the hook, and when the hook returns, pop(n) returns
with the list cut to the marker it read, a list of exactly that length, and the
scope stack cut to depth - n. -/
theorem pop_reads_within_bounds (b : backend β ε) (c : β) (ops : List op)
    (hvalid : valid b ops (create c)) :
    (∀ (i m : Nat), (exec b ops (create c)).m_scopes[i]? = some m →
      m ≤ (exec b ops (create c)).m_assumptions.length) ∧
    (∀ n, 0 < n → n ≤ get_scope_level (exec b ops (create c)) →
      get_scope_level (exec b ops (create c)) - n < (exec b ops (create c)).m_scopes.length ∧
      ∃ m,
        (index (exec b ops (create c)).m_scopes (get_scope_level (exec b ops (create c)) - n) :
          Except (failure ε) Nat) = Except.ok m ∧
        m ≤ (exec b ops (create c)).m_assumptions.length ∧
        (shrink (exec b ops (create c)).m_assumptions m : Except (failure ε) (List expr)) =
          Except.ok ((exec b ops (create c)).m_assumptions.take m) ∧
        ((exec b ops (create c)).m_assumptions.take m).length = m ∧
        (shrink (exec b ops (create c)).m_scopes (get_scope_level (exec b ops (create c)) - n) :
          Except (failure ε) (List Nat)) =
          Except.ok ((exec b ops (create c)).m_scopes.take
            (get_scope_level (exec b ops (create c)) - n))) ∧
    (∀ n, 0 < n → n ≤ get_scope_level (exec b ops (create c)) →
      (pop b n (exec b ops (create c))).1 =
        propagate (b.pop_core n (exec b ops (create c)).derived).1 ∧
      (pop b n (exec b ops (create c))).1 ≠ Except.error failure.vector_index ∧
      (pop b n (exec b ops (create c))).1 ≠ Except.error failure.vector_shrink ∧
      (∀ line, (pop b n (exec b ops (create c))).1 ≠
        Except.error (failure.assertion_violation line)) ∧
      ((b.pop_core n (exec b ops (create c)).derived).1 = Except.ok () →
        ∃ m,
          (exec b ops (create c)).m_scopes[get_scope_level (exec b ops (create c)) - n]? =
            some m ∧
          m ≤ (exec b ops (create c)).m_assumptions.length ∧
          pop b n (exec b ops (create c)) = (Except.ok (),
            { m_assumptions := (exec b ops (create c)).m_assumptions.take m,
              m_scopes := (exec b ops (create c)).m_scopes.take
                (get_scope_level (exec b ops (create c)) - n),
              derived := (b.pop_core n (exec b ops (create c)).derived).2,
              calls := (exec b ops (create c)).calls ++ [call.pop_core n] }) ∧
          (pop b n (exec b ops (create c))).2.m_assumptions.length = m ∧
          (pop b n (exec b ops (create c))).2.m_scopes.length =
            get_scope_level (exec b ops (create c)) - n)) := by
  -- the statement is scoped to sequences within the contract of pop; the invariant used below
  -- holds after any sequence, since a pop beyond the depth ends at its check and changes nothing
  have _ := hvalid
  have hcons := consistent_exec b ops (create c) (consistent_create c)
  refine ⟨fun i m hm => consistent_marker_le _ hcons i m hm, ?_, ?_⟩
  · intro n hn hlvl
    unfold get_scope_level at hlvl ⊢
    have hlt : (exec b ops (create c)).m_scopes.length - n <
        (exec b ops (create c)).m_scopes.length := by omega
    have hm := List.getElem?_eq_getElem hlt
    have hle := consistent_marker_le _ hcons _ _ hm
    refine ⟨hlt, _, index_within _ _ _ hm, hle, shrink_within _ _ hle, ?_,
      shrink_within _ _ (Nat.le_of_lt hlt)⟩
    rw [List.length_take]
    omega
  · intro n hn hlvl
    cases hc : (b.pop_core n (exec b ops (create c)).derived).1 with
    | error e =>
      rw [pop_thrown b n _ e hn hc]
      refine ⟨rfl, ?_, ?_, ?_, ?_⟩
      · intro h; cases h
      · intro h; cases h
      · intro line h; cases h
      · intro h; cases h
    | ok u =>
      obtain ⟨m, hm, hle, hpop⟩ := pop_consistent b n _ hcons hn hlvl hc
      rw [hpop]
      refine ⟨rfl, ?_, ?_, ?_, ?_⟩
      · intro h; cases h
      · intro h; cases h
      · intro line h; cases h
      · intro _
        refine ⟨m, hm, hle, rfl, ?_, ?_⟩
        · simp only [List.length_take]
          omega
        · simp only [List.length_take]
          unfold get_scope_level at hlvl ⊢
          omega

/-- After Scenario A both markers are at most the length 2 of the list, the
read of pop(1) is at index 1, below the size 2 of the scope stack, and pop(1)
returns with the list cut to [a1] and the scope stack cut to [0]. -/
theorem pop_reads_within_bounds_witness :
    valid (backend.steady lbool.l_true) scenario_A (create ()) ∧
    (exec (backend.steady lbool.l_true) scenario_A (create ())).m_scopes[1]? = some 1 ∧
    1 ≤ (exec (backend.steady lbool.l_true) scenario_A (create ())).m_assumptions.length ∧
    get_scope_level (exec (backend.steady lbool.l_true) scenario_A (create ())) - 1 <
      (exec (backend.steady lbool.l_true) scenario_A (create ())).m_scopes.length ∧
    (pop (backend.steady lbool.l_true) 1
      (exec (backend.steady lbool.l_true) scenario_A (create ()))).1 = Except.ok () ∧
    (pop (backend.steady lbool.l_true) 1
      (exec (backend.steady lbool.l_true) scenario_A (create ()))).1 ≠
        Except.error failure.vector_index ∧
    (pop (backend.steady lbool.l_true) 1
      (exec (backend.steady lbool.l_true) scenario_A (create ()))).2.m_assumptions =
        [scenario_a1] ∧
    (pop (backend.steady lbool.l_true) 1
      (exec (backend.steady lbool.l_true) scenario_A (create ()))).2.m_scopes = [0] :=
  have hv : valid (backend.steady lbool.l_true) scenario_A (create ()) :=
    ⟨trivial, trivial, trivial, trivial, trivial⟩
  have h := pop_reads_within_bounds (backend.steady lbool.l_true) () scenario_A hv
  ⟨hv, rfl, h.1 1 1 rfl, (h.2.1 1 (by decide) (by decide)).1,
    (h.2.2 1 (by decide) (by decide)).1, (h.2.2 1 (by decide) (by decide)).2.1, rfl, rfl⟩

/-- C18: assert(t, a) with a null label a is the plain assert(t): t itself, not
an implication, is forwarded once to the backend, the outcome is the outcome of
the plain assert, and the assumption list and the scope stack are unchanged. -/
theorem assert_expr_null (b : backend β ε) (s : solver_na2as β) (t : expr) :
    assert_expr b t none s = assert_plain b t s ∧
    (assert_expr b t none s).2.calls = s.calls ++ [call.assert_expr t] ∧
    (assert_expr b t none s).2.derived = (b.assert_expr t s.derived).2 ∧
    (assert_expr b t none s).1 = propagate (b.assert_expr t s.derived).1 ∧
    (assert_expr b t none s).2.m_assumptions = s.m_assumptions ∧
    (assert_expr b t none s).2.m_scopes = s.m_scopes :=
  ⟨rfl, rfl, rfl, rfl, rfl, rfl⟩

end solver_na2as

/-! ## The calls made to the backend -/

namespace solver_na2as

variable {β ε : Type}

theorem push_core_calls_append (xs ys : List call) :
    push_core_calls (xs ++ ys) = push_core_calls xs + push_core_calls ys := by
  simp [push_core_calls]

theorem pop_core_levels_append (xs ys : List call) :
    pop_core_levels (xs ++ ys) = pop_core_levels xs + pop_core_levels ys := by
  simp [pop_core_levels]

/-- A `pop(n)` with `n > 0` calls `pop_core(n)` once and makes no other call,
however it ends. -/
theorem pop_calls (b : backend β ε) (n : Nat) (s : solver_na2as β) (hn : 0 < n) :
    (pop b n s).2.calls = s.calls ++ [call.pop_core n] := by
  cases hc : (b.pop_core n s.derived).1 with
  | error e => rw [pop_thrown b n s e hn hc]
  | ok u =>
    by_cases hlvl : n ≤ s.m_scopes.length
    · have hlt : s.m_scopes.length - n < s.m_scopes.length := by omega
      have hm : s.m_scopes[s.m_scopes.length - n]? =
          some (s.m_scopes[s.m_scopes.length - n]) := List.getElem?_eq_getElem hlt
      by_cases hle : s.m_scopes[s.m_scopes.length - n] ≤ s.m_assumptions.length
      · rw [pop_returned b n s _ hn hlvl hc hm hle]
      · simp [pop, hn, pop_core, hc, propagate, SASSERT, hlvl, index, hm, restore_assumptions,
          shrink, hle]
    · rw [pop_beyond b n s (by omega) hc]

/-- The calls made by an operation other than `push` and `pop`: none of them
is a `push_core` or a `pop_core`. -/
theorem step_calls_other (b : backend β ε) (o : op) (s : solver_na2as β)
    (hpush : o ≠ op.push) (hpop : ∀ n, o ≠ op.pop n) :
    ∃ cs, (step b o s).calls = s.calls ++ cs ∧ call.push_core ∉ cs ∧
      ∀ n, call.pop_core n ∉ cs := by
  cases o with
  | assert t => exact ⟨[call.assert_expr t], rfl, by simp, by simp⟩
  | assert_named t a =>
    cases a with
    | none => exact ⟨[call.assert_expr t], rfl, by simp, by simp⟩
    | some a =>
      by_cases h1 : is_uninterp_const a = true
      · by_cases h2 : is_bool a = true
        · refine ⟨[call.assert_expr (expr.implies a t)], ?_, by simp, by simp⟩
          simp only [step]
          rw [assert_expr_label b t a s h1 h2]
        · exact ⟨[], by simp [step, assert_expr, SASSERT, h1, h2], by simp, by simp⟩
      · exact ⟨[], by simp [step, assert_expr, SASSERT, h1], by simp, by simp⟩
  | check_sat assumptions =>
    refine ⟨[call.check_sat_core (s.m_assumptions ++ assumptions).length
      (s.m_assumptions ++ assumptions)], ?_, by simp, by simp⟩
    simp only [step]
    rw [check_sat_eq]
  | get_consequences asms vars consequences =>
    refine ⟨[call.get_consequences_core (s.m_assumptions ++ asms) vars], ?_, by simp, by simp⟩
    simp only [step]
    rw [get_consequences_eq]
  | push => exact absurd rfl hpush
  | pop n => exact absurd rfl (hpop n)

/-- A record without `push_core` and `pop_core` opens and closes no level. -/
theorem no_scope_calls (cs : List call) (h1 : call.push_core ∉ cs)
    (h2 : ∀ n, call.pop_core n ∉ cs) : push_core_calls cs = 0 ∧ pop_core_levels cs = 0 := by
  induction cs with
  | nil => exact ⟨rfl, rfl⟩
  | cons x xs ih =>
    have hx1 : x ≠ call.push_core := fun h => h1 (by simp [h])
    have hx2 : ∀ n, x ≠ call.pop_core n := fun n h => h2 n (by simp [h])
    obtain ⟨i1, i2⟩ := ih (fun h => h1 (List.mem_cons_of_mem _ h))
      (fun n h => h2 n (List.mem_cons_of_mem _ h))
    unfold push_core_calls at i1
    unfold pop_core_levels at i2
    unfold push_core_calls pop_core_levels
    cases x with
    | assert_expr t => simp [call.opened, call.closed, i1, i2]
    | push_core => exact absurd rfl hx1
    | pop_core n => exact absurd rfl (hx2 n)
    | check_sat_core k asms => simp [call.opened, call.closed, i1, i2]
    | get_consequences_core asms vars => simp [call.opened, call.closed, i1, i2]

/-- One operation keeps the backend's nesting equal to the depth, when it is
within the contract of `pop` and its `pop_core` returns. -/
theorem balanced_step (b : backend β ε) (o : op) (s : solver_na2as β) (h : consistent s)
    (hbal : push_core_calls s.calls = pop_core_levels s.calls + get_scope_level s)
    (hadm : admissible o s)
    (hret : ∀ n, o = op.pop n → 0 < n → (b.pop_core n s.derived).1 = Except.ok ()) :
    push_core_calls (step b o s).calls =
      pop_core_levels (step b o s).calls + get_scope_level (step b o s) := by
  by_cases hpush : o = op.push
  · subst hpush
    rw [get_scope_level_step_push]
    have : (step b op.push s).calls = s.calls ++ [call.push_core] := rfl
    rw [this, push_core_calls_append, pop_core_levels_append]
    simp only [push_core_calls, pop_core_levels, List.map_cons, List.map_nil, List.sum_cons,
      List.sum_nil, call.opened, call.closed] at hbal ⊢
    omega
  · by_cases hpop : ∃ n, o = op.pop n
    · obtain ⟨n, rfl⟩ := hpop
      have hlvl : n ≤ get_scope_level s := hadm
      have hlow := (pop_lowers b n s h hlvl (hret n rfl)).2
      have hdepth : get_scope_level (step b (op.pop n) s) = get_scope_level s - n := hlow
      rw [hdepth]
      by_cases hn : 0 < n
      · have : (step b (op.pop n) s).calls = s.calls ++ [call.pop_core n] := pop_calls b n s hn
        rw [this, push_core_calls_append, pop_core_levels_append]
        simp only [push_core_calls, pop_core_levels, List.map_cons, List.map_nil, List.sum_cons,
          List.sum_nil, call.opened, call.closed] at hbal ⊢
        omega
      · have hz : n = 0 := by omega
        subst hz
        have : (step b (op.pop 0) s).calls = s.calls := by simp [step, pop_zero]
        rw [this]
        omega
    · have hpop2 : ∀ n, o ≠ op.pop n := fun n hn => hpop ⟨n, hn⟩
      obtain ⟨cs, hcs, h1, h2⟩ := step_calls_other b o s hpush hpop2
      obtain ⟨z1, z2⟩ := no_scope_calls cs h1 h2
      have hle := get_scope_level_step_le b o s hpush
      have hdepth : get_scope_level (step b o s) = get_scope_level s := by
        cases o with
        | assert t => rfl
        | assert_named t a => simp [step, get_scope_level]
        | check_sat assumptions => simp [step, get_scope_level]
        | get_consequences asms vars consequences => simp [step, get_scope_level]
        | push => exact absurd rfl hpush
        | pop n => exact absurd rfl (hpop2 n)
      rw [hcs, push_core_calls_append, pop_core_levels_append, z1, z2, hdepth]
      omega

theorem balanced_exec (b : backend β ε) (ops : List op) (s : solver_na2as β) (h : consistent s)
    (hbal : push_core_calls s.calls = pop_core_levels s.calls + get_scope_level s)
    (hvalid : valid b ops s) (hret : pops_return b ops s) :
    push_core_calls (exec b ops s).calls =
      pop_core_levels (exec b ops s).calls + get_scope_level (exec b ops s) := by
  induction ops generalizing s with
  | nil => exact hbal
  | cons o os ih =>
    rw [exec_cons]
    exact ih _ (consistent_step b o s h) (balanced_step b o s h hbal hvalid.1 hret.1)
      hvalid.2 hret.2

/-- C12: after any sequence of operations from the initial state in which every
pop(n) has n at most the depth and returns from its hook, the number of
push_core calls made to the backend minus the sum of the arguments of the
pop_core calls equals the size of the scope stack, which is get_scope_level().
Each push makes exactly one call, push_core; each pop(n) with n > 0 makes
exactly one call, pop_core(n); pop(0) makes none; and no call made by any other
operation is a push_core or a pop_core. -/
theorem backend_nesting_agrees (b : backend β ε) (c : β) :
    (∀ ops, valid b ops (create c) → pops_return b ops (create c) →
      pop_core_levels (exec b ops (create c)).calls ≤
        push_core_calls (exec b ops (create c)).calls ∧
      push_core_calls (exec b ops (create c)).calls -
          pop_core_levels (exec b ops (create c)).calls =
        (exec b ops (create c)).m_scopes.length ∧
      (exec b ops (create c)).m_scopes.length = get_scope_level (exec b ops (create c))) ∧
    (∀ s : solver_na2as β, (push b s).2.calls = s.calls ++ [call.push_core]) ∧
    (∀ (s : solver_na2as β) n, 0 < n → (pop b n s).2.calls = s.calls ++ [call.pop_core n]) ∧
    (∀ s : solver_na2as β, (pop b 0 s).2.calls = s.calls) ∧
    (∀ (s : solver_na2as β) (o : op), o ≠ op.push → (∀ n, o ≠ op.pop n) →
      ∃ cs, (step b o s).calls = s.calls ++ cs ∧ call.push_core ∉ cs ∧
        ∀ n, call.pop_core n ∉ cs) := by
  refine ⟨?_, fun s => rfl, fun s n hn => pop_calls b n s hn, fun s => by rw [pop_zero],
    fun s o h1 h2 => step_calls_other b o s h1 h2⟩
  intro ops hvalid hret
  have h := balanced_exec b ops (create c) (consistent_create c) rfl hvalid hret
  unfold get_scope_level at h ⊢
  omega

/-- Three pushes and two pop(1) on a backend that accepts every call: three
push_core and two pop_core(1) have been called, and the depth is 1. -/
theorem backend_nesting_agrees_witness :
    push_core_calls (exec (backend.steady lbool.l_true)
      [op.push, op.push, op.push, op.pop 1, op.pop 1] (create ())).calls -
        pop_core_levels (exec (backend.steady lbool.l_true)
          [op.push, op.push, op.push, op.pop 1, op.pop 1] (create ())).calls =
      (exec (backend.steady lbool.l_true)
        [op.push, op.push, op.push, op.pop 1, op.pop 1] (create ())).m_scopes.length ∧
    (exec (backend.steady lbool.l_true)
      [op.push, op.push, op.push, op.pop 1, op.pop 1] (create ())).m_scopes.length = 1 :=
  have h := (backend_nesting_agrees (backend.steady lbool.l_true) ()).1
    [op.push, op.push, op.push, op.pop 1, op.pop 1]
    ⟨trivial, trivial, trivial, (by decide : 1 ≤ 3), (by decide : 1 ≤ 2), trivial⟩
    ⟨fun _ _ _ => rfl, fun _ _ _ => rfl, fun _ _ _ => rfl, fun _ _ _ => rfl,
      fun _ _ _ => rfl, trivial⟩
  ⟨h.2.1, rfl⟩

end solver_na2as

/-! ## The order inside a named assertion -/

namespace solver_na2as

variable {β ε : Type}

/-- C14, as the code has it: assert(t, a) for a label a first appends a to the
assumption list and only then builds a => t and forwards it through the plain
assert, which therefore runs on a list whose last element is already a; when
the plain assert throws, the exception comes out and the list is left with a
appended, not as it was before the call. -/
theorem assert_expr_appends_first (b : backend β ε) (s : solver_na2as β) (t a : expr)
    (hconst : is_uninterp_const a = true) (hbool : is_bool a = true) :
    assert_expr b t (some a) s =
      assert_plain b (mk_implies a t) { s with m_assumptions := s.m_assumptions ++ [a] } ∧
    (∀ e, (b.assert_expr (mk_implies a t) s.derived).1 = Except.error e →
      (assert_expr b t (some a) s).1 = Except.error (failure.exception e) ∧
      (assert_expr b t (some a) s).2.m_assumptions = s.m_assumptions ++ [a] ∧
      (assert_expr b t (some a) s).2.m_assumptions ≠ s.m_assumptions) := by
  constructor
  · simp [assert_expr, SASSERT, hconst, hbool]
  · intro e he
    rw [assert_expr_label b t a s hconst hbool]
    refine ⟨?_, rfl, ?_⟩
    · have he2 : (b.assert_expr (expr.implies a t) s.derived).1 = Except.error e := he
      simp only [he2, propagate]
    · intro h
      have hlen := congrArg List.length h
      simp at hlen

/-- A second named assertion after Scenario A, on a backend whose plain assert
throws: the exception comes out and the list has grown to [a1, a2, a2]. -/
theorem assert_expr_appends_first_witness :
    is_uninterp_const scenario_a2 = true ∧ is_bool scenario_a2 = true ∧
    (backend.throwing.assert_expr (mk_implies scenario_a2 scenario_t2)
      (exec backend.throwing scenario_A (create ())).derived).1 = Except.error () ∧
    (assert_expr backend.throwing scenario_t2 (some scenario_a2)
      (exec backend.throwing scenario_A (create ()))).1 = Except.error (failure.exception ()) ∧
    (assert_expr backend.throwing scenario_t2 (some scenario_a2)
      (exec backend.throwing scenario_A (create ()))).2.m_assumptions =
        [scenario_a1, scenario_a2] ++ [scenario_a2] :=
  have h := (assert_expr_appends_first backend.throwing
    (exec backend.throwing scenario_A (create ())) scenario_t2 scenario_a2 rfl rfl).2 () rfl
  ⟨rfl, rfl, rfl, h.1, h.2.1⟩

/-- C14 as stated fails: in the initial state, on a backend whose plain assert
throws, assert(t1, a1) ends with the exception and leaves the list [a1], not
the empty list it was before the call. -/
theorem assert_expr_order_counterexample :
    (backend.throwing.assert_expr (mk_implies scenario_a1 scenario_t1)
      (create ()).derived).1 = Except.error () ∧
    (assert_expr backend.throwing scenario_t1 (some scenario_a1) (create ())).1 =
      Except.error (failure.exception ()) ∧
    (create ()).m_assumptions = [] ∧
    (assert_expr backend.throwing scenario_t1 (some scenario_a1) (create ())).2.m_assumptions =
      [scenario_a1] ∧
    ¬ ((assert_expr backend.throwing scenario_t1 (some scenario_a1)
        (create ())).2.m_assumptions = (create ()).m_assumptions) :=
  ⟨rfl, rfl, rfl, rfl, by decide⟩

end solver_na2as

/-! ## Where a standing literal is removed -/

namespace solver_na2as

variable {β ε : Type}

/-- An operation other than a pop to a depth below `d` leaves the lowest `d`
markers as they are. -/
theorem low_markers_step (b : backend β ε) (o : op) (s : solver_na2as β) (d : Nat)
    (hd : d ≤ get_scope_level s)
    (hpop : ∀ n, o = op.pop n → n ≤ get_scope_level s ∧ d ≤ get_scope_level s - n) :
    d ≤ get_scope_level (step b o s) ∧ (step b o s).m_scopes.take d = s.m_scopes.take d := by
  cases o with
  | assert t => exact ⟨hd, rfl⟩
  | assert_named t a => exact ⟨by simpa [step, get_scope_level] using hd, by simp [step]⟩
  | check_sat assumptions =>
    exact ⟨by simpa [step, get_scope_level] using hd, by simp [step]⟩
  | get_consequences asms vars consequences =>
    exact ⟨by simpa [step, get_scope_level] using hd, by simp [step]⟩
  | push =>
    refine ⟨by rw [get_scope_level_step_push]; omega, ?_⟩
    simp only [step, push_scopes]
    exact List.take_append_of_le_length hd
  | pop n =>
    obtain ⟨_, hn2⟩ := hpop n rfl
    unfold get_scope_level at hd hn2 ⊢
    rcases pop_effect b n s with ⟨_, h2⟩ | ⟨_, _, _, m, _, _, _, h2⟩
    · refine ⟨?_, ?_⟩
      · simpa [step, h2] using hd
      · simp [step, h2]
    · simp only [step, h2, List.length_take, List.take_take]
      refine ⟨by omega, ?_⟩
      rw [Nat.min_eq_left hn2]

/-- A run all of whose pops have a target depth of at least `d` leaves the
lowest `d` markers as they are. -/
theorem low_markers_exec (b : backend β ε) (ops : List op) (s : solver_na2as β) (d : Nat)
    (hd : d ≤ get_scope_level s) (hpop : pops_target_ge b d ops s) :
    d ≤ get_scope_level (exec b ops s) ∧ (exec b ops s).m_scopes.take d = s.m_scopes.take d := by
  induction ops generalizing s with
  | nil => exact ⟨hd, rfl⟩
  | cons o os ih =>
    obtain ⟨h1, h2⟩ := low_markers_step b o s d hd hpop.1
    obtain ⟨h3, h4⟩ := ih _ h1 hpop.2
    rw [exec_cons]
    exact ⟨h3, h4.trans h2⟩

/-- C16: for the entry appended by assert(t, a) while the depth is d, in a state
reached from the initial state: after any further operations all of whose pops
have a target depth of at least d (pops back to depth d itself included) the
entry is still at its index; and a pop after that whose target depth is
strictly below d, once its hook returns, returns and removes it: the list
becomes no longer than that index. -/
theorem removal_boundary (b : backend β ε) (c : β) (pre : List op) (t a : expr)
    (ops : List op) (hvalid : valid b pre (create c))
    (hconst : is_uninterp_const a = true) (hbool : is_bool a = true)
    (hpops : pops_target_ge b (get_scope_level (exec b pre (create c))) ops
      (assert_expr b t (some a) (exec b pre (create c))).2) :
    (exec b ops (assert_expr b t (some a) (exec b pre (create c))).2).m_assumptions[
        (exec b pre (create c)).m_assumptions.length]? = some a ∧
    (∀ n, n ≤ get_scope_level (exec b ops (assert_expr b t (some a) (exec b pre (create c))).2) →
      get_scope_level (exec b ops (assert_expr b t (some a) (exec b pre (create c))).2) - n <
        get_scope_level (exec b pre (create c)) →
      (b.pop_core n
        (exec b ops (assert_expr b t (some a) (exec b pre (create c))).2).derived).1 =
          Except.ok () →
      (pop b n (exec b ops (assert_expr b t (some a) (exec b pre (create c))).2)).1 =
        Except.ok () ∧
      (pop b n (exec b ops
        (assert_expr b t (some a) (exec b pre (create c))).2)).2.m_assumptions.length ≤
          (exec b pre (create c)).m_assumptions.length ∧
      (pop b n (exec b ops
        (assert_expr b t (some a) (exec b pre (create c))).2)).2.m_assumptions[
          (exec b pre (create c)).m_assumptions.length]? = none) := by
  -- the statement is scoped to sequences within the contract of pop; the invariant used below
  -- holds after any sequence, since a pop beyond the depth ends at its check and changes nothing
  have _ := hvalid
  have hc0 := consistent_exec b pre (create c) (consistent_create c)
  have hc1 : consistent (assert_expr b t (some a) (exec b pre (create c))).2 :=
    consistent_step b (op.assert_named t (some a)) _ hc0
  have hcN := consistent_exec b ops _ hc1
  obtain ⟨k1, k2, k3⟩ := kept_after_assert b (exec b pre (create c)) t a hconst hbool
  refine ⟨kept_exec b ops _ _ _ a k1 k2 k3 hpops, ?_⟩
  intro n hlvl hbelow hcore
  obtain ⟨_, hlow⟩ := low_markers_exec b ops _ _ k1 hpops
  have hn : 0 < n := by
    have := (low_markers_exec b ops _ _ k1 hpops).1
    omega
  obtain ⟨m, hm, hle, hpop⟩ := pop_consistent b n _ hcN hn hlvl hcore
  have hm0 : (exec b pre (create c)).m_scopes[
      get_scope_level (exec b ops (assert_expr b t (some a) (exec b pre (create c))).2) - n]? =
        some m := by
    have h1 : ((exec b ops (assert_expr b t (some a) (exec b pre (create c))).2).m_scopes.take
        (get_scope_level (exec b pre (create c))))[
          get_scope_level (exec b ops (assert_expr b t (some a) (exec b pre (create c))).2) - n]?
        = some m := by
      rw [List.getElem?_take_of_lt hbelow]; exact hm
    rw [hlow, assert_expr_scopes, List.getElem?_take_of_lt hbelow] at h1
    exact h1
  have hmi := consistent_marker_le _ hc0 _ _ hm0
  have hlen : (pop b n (exec b ops
      (assert_expr b t (some a) (exec b pre (create c))).2)).2.m_assumptions.length ≤
        (exec b pre (create c)).m_assumptions.length := by
    rw [hpop]
    simp only [List.length_take]
    omega
  exact ⟨by rw [hpop], hlen, List.getElem?_eq_none hlen⟩

/-- The entry a1 of Scenario A, placed at depth 1: a pop back to depth 1 keeps
it at index 0, and the pop to depth 0 after that removes it. -/
theorem removal_boundary_witness :
    (exec (backend.steady lbool.l_true)
      [op.push, op.assert_named scenario_t2 (some scenario_a2), op.pop 1]
      (assert_expr (backend.steady lbool.l_true) scenario_t1 (some scenario_a1)
        (exec (backend.steady lbool.l_true) [op.push] (create ()))).2).m_assumptions[0]? =
      some scenario_a1 ∧
    (pop (backend.steady lbool.l_true) 1
      (exec (backend.steady lbool.l_true)
        [op.push, op.assert_named scenario_t2 (some scenario_a2), op.pop 1]
        (assert_expr (backend.steady lbool.l_true) scenario_t1 (some scenario_a1)
          (exec (backend.steady lbool.l_true) [op.push] (create ()))).2)).2.m_assumptions[0]? =
      none :=
  have hp : pops_target_ge (backend.steady lbool.l_true) 1
      [op.push, op.assert_named scenario_t2 (some scenario_a2), op.pop 1]
      (assert_expr (backend.steady lbool.l_true) scenario_t1 (some scenario_a1)
        (exec (backend.steady lbool.l_true) [op.push] (create ()))).2 := by
    refine ⟨?_, ?_, ?_, trivial⟩ <;> intro n h <;> cases h
    exact ⟨by decide, by decide⟩
  have h := removal_boundary (backend.steady lbool.l_true) () [op.push] scenario_t1 scenario_a1
    [op.push, op.assert_named scenario_t2 (some scenario_a2), op.pop 1]
    ⟨trivial, trivial⟩ rfl rfl hp
  ⟨h.1, (h.2 1 (by decide) (by decide) rfl).2.2⟩

end solver_na2as

/-! ## Pops compose -/

namespace solver_na2as

variable {β ε : Type}

/-- The two fields after a `pop(n)`, `n > 0`, within the depth, in a consistent
state and with a hook that returns. -/
theorem pop_fields (b : backend β ε) (n : Nat) (s : solver_na2as β) (h : consistent s)
    (hn : 0 < n) (hlvl : n ≤ s.m_scopes.length)
    (hcore : (b.pop_core n s.derived).1 = Except.ok ()) :
    ∃ m, s.m_scopes[s.m_scopes.length - n]? = some m ∧
      (pop b n s).2.m_assumptions = s.m_assumptions.take m ∧
      (pop b n s).2.m_scopes = s.m_scopes.take (s.m_scopes.length - n) := by
  obtain ⟨m, hm, _, hpop⟩ := pop_consistent b n s h hn hlvl hcore
  exact ⟨m, hm, by rw [hpop], by rw [hpop]; rfl⟩

/-- Truncating to depth `D - m` and then by `n` more levels is truncating by
`m + n` levels at once. -/
theorem truncate_twice (s s1 : solver_na2as β) (h : consistent s) (m n x : Nat)
    (hm : 0 < m) (hn : 0 < n) (hmn : m + n ≤ s.m_scopes.length)
    (hx : s.m_scopes[s.m_scopes.length - m]? = some x)
    (h1 : s1.m_assumptions = s.m_assumptions.take x)
    (h2 : s1.m_scopes = s.m_scopes.take (s.m_scopes.length - m)) :
    s1.m_scopes.length - n = s.m_scopes.length - (m + n) ∧
    s1.m_scopes[s1.m_scopes.length - n]? = s.m_scopes[s.m_scopes.length - (m + n)]? ∧
    s1.m_scopes.take (s1.m_scopes.length - n) =
      s.m_scopes.take (s.m_scopes.length - (m + n)) ∧
    (∀ y, s.m_scopes[s.m_scopes.length - (m + n)]? = some y →
      s1.m_assumptions.take y = s.m_assumptions.take y) := by
  have hlen : s1.m_scopes.length = s.m_scopes.length - m := by
    rw [h2, List.length_take]; omega
  have hidx : s1.m_scopes.length - n = s.m_scopes.length - (m + n) := by omega
  refine ⟨hidx, ?_, ?_, ?_⟩
  · rw [hidx, h2, List.getElem?_take_of_lt (by omega)]
  · rw [hidx, h2, List.take_take, Nat.min_eq_left (by omega)]
  · intro y hy
    have hyx := consistent_marker_mono s h _ _ y x (by omega) hy hx
    rw [h1, List.take_take, Nat.min_eq_left hyx]

/-- The two fields after `n` successive `pop(1)` whose hooks return. -/
theorem pop_one_fields (b : backend β ε) (n : Nat) (s : solver_na2as β) (h : consistent s)
    (hlvl : n ≤ s.m_scopes.length) (hret : pops_return b (List.replicate n (op.pop 1)) s) :
    (exec b (List.replicate n (op.pop 1)) s).m_scopes =
      s.m_scopes.take (s.m_scopes.length - n) ∧
    (n = 0 → (exec b (List.replicate n (op.pop 1)) s).m_assumptions = s.m_assumptions) ∧
    (0 < n → ∃ m, s.m_scopes[s.m_scopes.length - n]? = some m ∧
      (exec b (List.replicate n (op.pop 1)) s).m_assumptions = s.m_assumptions.take m) := by
  induction n generalizing s with
  | zero =>
    refine ⟨?_, fun _ => rfl, fun h0 => absurd h0 (Nat.lt_irrefl 0)⟩
    simp [exec]
  | succ n ih =>
    rw [List.replicate_succ, exec_cons]
    obtain ⟨x, hx, f1, f2⟩ := pop_fields b 1 s h (by decide) (by omega) (hret.1 1 rfl (by decide))
    have hs1 : consistent (step b (op.pop 1) s) := consistent_step b _ s h
    have g1 : (step b (op.pop 1) s).m_assumptions = s.m_assumptions.take x := f1
    have g2 : (step b (op.pop 1) s).m_scopes = s.m_scopes.take (s.m_scopes.length - 1) := f2
    have hlen1 : (step b (op.pop 1) s).m_scopes.length = s.m_scopes.length - 1 := by
      rw [g2, List.length_take]; omega
    obtain ⟨i1, i2, i3⟩ := ih (step b (op.pop 1) s) hs1 (by omega) hret.2
    by_cases hn : 0 < n
    · obtain ⟨t1, t2, t3, t4⟩ := truncate_twice s (step b (op.pop 1) s) h 1 n x (by decide) hn
        (by omega) hx g1 g2
      have hsum : 1 + n = n + 1 := Nat.add_comm 1 n
      rw [hsum] at t1 t2 t3 t4
      refine ⟨by rw [i1, t3], fun h0 => by omega, fun _ => ?_⟩
      obtain ⟨y, hy, hL⟩ := i3 hn
      rw [t2] at hy
      exact ⟨y, hy, by rw [hL, t4 y hy]⟩
    · have hz : n = 0 := by omega
      subst hz
      refine ⟨?_, fun h0 => by omega, fun _ => ⟨x, hx, ?_⟩⟩
      · rw [i1, hlen1, g2, List.take_take]
        simp
      · rw [i2 rfl, g1]

/-- C17: in every state reached from the initial state by a sequence in which
every pop(n) has n at most the depth, and for all m, n with m + n at most the
depth, pop(m) followed by pop(n) leaves the assumption list and the scope stack
exactly as a single pop(m + n) does, when the hooks called return; and pop(n)
leaves them exactly as n successive pop(1) do. -/
theorem pops_compose (b : backend β ε) (c : β) (ops : List op)
    (hvalid : valid b ops (create c)) :
    (∀ m n, m + n ≤ get_scope_level (exec b ops (create c)) →
      (0 < m → (b.pop_core m (exec b ops (create c)).derived).1 = Except.ok ()) →
      (0 < n → (b.pop_core n (pop b m (exec b ops (create c))).2.derived).1 = Except.ok ()) →
      (0 < m + n → (b.pop_core (m + n) (exec b ops (create c)).derived).1 = Except.ok ()) →
      (pop b n (pop b m (exec b ops (create c))).2).2.m_assumptions =
        (pop b (m + n) (exec b ops (create c))).2.m_assumptions ∧
      (pop b n (pop b m (exec b ops (create c))).2).2.m_scopes =
        (pop b (m + n) (exec b ops (create c))).2.m_scopes) ∧
    (∀ n, n ≤ get_scope_level (exec b ops (create c)) →
      (0 < n → (b.pop_core n (exec b ops (create c)).derived).1 = Except.ok ()) →
      pops_return b (List.replicate n (op.pop 1)) (exec b ops (create c)) →
      (exec b (List.replicate n (op.pop 1)) (exec b ops (create c))).m_assumptions =
        (pop b n (exec b ops (create c))).2.m_assumptions ∧
      (exec b (List.replicate n (op.pop 1)) (exec b ops (create c))).m_scopes =
        (pop b n (exec b ops (create c))).2.m_scopes) := by
  -- the statement is scoped to sequences within the contract of pop; the invariant used below
  -- holds after any sequence, since a pop beyond the depth ends at its check and changes nothing
  have _ := hvalid
  have hcons := consistent_exec b ops (create c) (consistent_create c)
  generalize exec b ops (create c) = s at hcons ⊢
  unfold get_scope_level
  constructor
  · intro m n hmn h1 h2 h3
    by_cases hm : 0 < m
    · by_cases hn : 0 < n
      · obtain ⟨x, hx, f1, f2⟩ := pop_fields b m s hcons hm (by omega) (h1 hm)
        have hs1 : consistent (pop b m s).2 := consistent_step b (op.pop m) s hcons
        obtain ⟨t1, t2, t3, t4⟩ := truncate_twice s (pop b m s).2 hcons m n x hm hn hmn hx f1 f2
        have hlen : (pop b m s).2.m_scopes.length = s.m_scopes.length - m := by
          rw [f2, List.length_take]; omega
        obtain ⟨y, hy, g1, g2⟩ := pop_fields b n (pop b m s).2 hs1 hn (by omega) (h2 hn)
        obtain ⟨z, hz, k1, k2⟩ := pop_fields b (m + n) s hcons (by omega) hmn (h3 (by omega))
        rw [t2, hz] at hy
        injection hy with hy
        subst hy
        exact ⟨by rw [g1, k1, t4 z hz], by rw [g2, k2, t3]⟩
      · have hz : n = 0 := by omega
        subst hz
        rw [pop_zero]
        exact ⟨rfl, rfl⟩
    · have hz : m = 0 := by omega
      subst hz
      rw [pop_zero, Nat.zero_add]
      exact ⟨rfl, rfl⟩
  · intro n hlvl hcore hret
    obtain ⟨i1, i2, i3⟩ := pop_one_fields b n s hcons hlvl hret
    by_cases hn : 0 < n
    · obtain ⟨z, hz, k1, k2⟩ := pop_fields b n s hcons hn hlvl (hcore hn)
      obtain ⟨y, hy, hL⟩ := i3 hn
      rw [hz] at hy
      injection hy with hy
      subst hy
      exact ⟨by rw [hL, k1], by rw [i1, k2]⟩
    · have hz : n = 0 := by omega
      subst hz
      rw [pop_zero]
      exact ⟨i2 rfl, by simpa using i1⟩

/-- After Scenario A on a backend that accepts every call, pop(1) followed by
pop(1) and a single pop(2) both leave an empty list and an empty scope stack. -/
theorem pops_compose_witness :
    (pop (backend.steady lbool.l_true) 1
      (pop (backend.steady lbool.l_true) 1
        (exec (backend.steady lbool.l_true) scenario_A (create ()))).2).2.m_assumptions =
      (pop (backend.steady lbool.l_true) (1 + 1)
        (exec (backend.steady lbool.l_true) scenario_A (create ()))).2.m_assumptions ∧
    (pop (backend.steady lbool.l_true) 2
      (exec (backend.steady lbool.l_true) scenario_A (create ()))).2.m_assumptions = [] ∧
    (pop (backend.steady lbool.l_true) 2
      (exec (backend.steady lbool.l_true) scenario_A (create ()))).2.m_scopes = [] :=
  have h := (pops_compose (backend.steady lbool.l_true) () scenario_A
    ⟨trivial, trivial, trivial, trivial, trivial⟩).1 1 1 (by decide)
    (fun _ => rfl) (fun _ => rfl) (fun _ => rfl)
  ⟨h.1, rfl, rfl⟩

end solver_na2as
